import Mathlib

/-!
# Verification of the rag_benchmark_suite chunking / retrieval engine

Shallow embedding of the chunking and evidence-retrieval code of the
repository (`Benchmark/ingestion/chunker.py`, `Benchmark/ingestion/chunk_store.py`,
`Benchmark/generation/evidence_proposer.py`, `Benchmark/services/retrieval_service.py`,
`Benchmark/embedding/build_faiss_rag_index.py`), together with proofs of the
behavioural claims made by the specification.

Modelling conventions:
* Python `int` is `Int`; similarity scores (Python `float`, used only for
  comparison and copying, never for arithmetic the claims depend on) are `ℚ`.
* Python `list` slicing `l[a:b]` is `pySlice` (negative indices, clamping).
* Python `sorted` / `list.sort` is a stable sort; the output of a stable sort
  is uniquely determined by the ordering relation, so it is modelled by
  `List.insertionSort`, Mathlib's stable sort, with the same ordering.
* Python `dict` (insertion ordered, update-in-place) is an association list
  with `dictSet` / `dictGet?`.
* Fallible constructors / functions that `raise` are modelled with `Except`.
-/

/-- Model of the Python list slice `l[start:stop]` (step 1): negative indices
count from the end of the list, and both bounds are clamped to the list. -/
def pySlice {α : Type _} (l : List α) (start stop : Int) : List α :=
  let n : Int := l.length
  let s := (if start < 0 then max (start + n) 0 else min start n).toNat
  let e := (if stop < 0 then max (stop + n) 0 else min stop n).toNat
  (l.take e).drop s

/-- Accumulator-passing scan behind `pySplit`: `acc` holds the (reversed)
characters of the token currently being read. -/
def pySplitGo : List Char → List Char → List (List Char)
  | [], acc => if acc = [] then [] else [acc.reverse]
  | c :: cs, acc =>
    if c.isWhitespace then
      if acc = [] then pySplitGo cs []
      else acc.reverse :: pySplitGo cs []
    else pySplitGo cs (c :: acc)

/-- Model of Python `str.split()` (no separator): split on runs of whitespace,
discarding empty pieces, so leading and trailing whitespace produce no tokens. -/
def pySplit (s : String) : List String :=
  (pySplitGo s.data []).map (fun cs => ⟨cs⟩)

/-- The decimal digit character for `d < 10` (Python renders digits as ASCII). -/
def decDigit (d : Nat) : Char := Char.ofNat (48 + d)

/-- Model of the Python format `f"{n:04d}"` for a natural number: the decimal
digits of `n`, left-padded with zeros to width 4.  For `n < 10000` this is
exactly the four decimal digits; larger numbers render all their digits. -/
def format04 (n : Nat) : String :=
  if n < 10000 then
    ⟨[decDigit (n / 1000), decDigit (n / 100 % 10), decDigit (n / 10 % 10), decDigit (n % 10)]⟩
  else Nat.repr n

/- ### Domain model (`Benchmark/domain/models.py`) -/

/-- `Chunk` dataclass. -/
structure Chunk where
  chunk_id : String
  paper_id : String
  text : String
  index : Int
deriving DecidableEq

/-- `EvidenceCandidate` dataclass. -/
structure EvidenceCandidate where
  chunk_id : String
  score : ℚ
  rank : Int
deriving DecidableEq

/- ### Chunker (`Benchmark/ingestion/chunker.py`) -/

/-- `Chunker` configuration (both fields are Python `int`s). -/
structure Chunker where
  chunk_size_tokens : Int
  chunk_overlap_tokens : Int
deriving DecidableEq

/-- `Chunker.__init__`: raises `ValueError` when `chunk_overlap_tokens >=
chunk_size_tokens`, otherwise stores both fields unchanged. -/
def Chunker.mk? (chunk_size_tokens chunk_overlap_tokens : Int) : Except String Chunker :=
  if chunk_overlap_tokens ≥ chunk_size_tokens then
    .error "chunk_overlap_tokens must be smaller than chunk_size_tokens"
  else
    .ok ⟨chunk_size_tokens, chunk_overlap_tokens⟩

/-- Body of the `while idx < len(tokens)` loop of `Chunker.chunk_text`, with an
explicit fuel argument bounding the number of iterations.  Whenever the chunker
was validly constructed the loop advances `idx` by `step ≥ 1` per iteration, so
`tokens.length + 1` fuel is always sufficient (proved below); the fuel-exhausted
branch is never reached on such inputs. -/
def chunkLoop (size step : Int) (paper_id : String) (tokens : List String) :
    Nat → Int → Nat → List Chunk
  | 0, _, _ => []
  | fuel + 1, idx, chunk_index =>
    if idx < (tokens.length : Int) then
      let segment := pySlice tokens idx (idx + size)
      let c : Chunk :=
        { chunk_id := paper_id ++ "_chunk_" ++ format04 chunk_index
          paper_id := paper_id
          text := " ".intercalate segment
          index := (chunk_index : Int) }
      if (tokens.length : Int) ≤ idx + size then [c]
      else c :: chunkLoop size step paper_id tokens fuel (idx + step) (chunk_index + 1)
    else []

/-- `Chunker.chunk_text`: whitespace-tokenize, return `[]` on no tokens,
otherwise emit windows of `chunk_size_tokens` tokens starting at offsets
`0, step, 2*step, ...` with `step = chunk_size_tokens - chunk_overlap_tokens`,
stopping after the first window whose end reaches the token count. -/
def Chunker.chunk_text (ch : Chunker) (paper_id text : String) : List Chunk :=
  let tokens := pySplit text
  if tokens = [] then []
  else
    chunkLoop ch.chunk_size_tokens (ch.chunk_size_tokens - ch.chunk_overlap_tokens)
      paper_id tokens (tokens.length + 1) 0 0

/- ### Helper lemmas about `pySlice` -/

theorem pySlice_nonneg (l : List α) (start stop : Int) (h1 : 0 ≤ start) (h2 : 0 ≤ stop) :
    pySlice l start stop = (l.drop start.toNat).take (stop.toNat - start.toNat) := by
  simp only [pySlice]
  rw [if_neg (by omega : ¬ start < 0), if_neg (by omega : ¬ stop < 0), List.drop_take]
  rcases Nat.le_total start.toNat l.length with h | h
  · have hs : (min start (l.length : Int)).toNat = start.toNat := by omega
    rw [hs]
    refine List.take_eq_take.mpr ?_
    simp only [List.length_drop]
    omega
  · have hs : (min start (l.length : Int)).toNat = l.length := by omega
    rw [hs, List.drop_length, List.drop_eq_nil_of_le h]
    simp

theorem pySlice_natCast (l : List α) (a b : Nat) :
    pySlice l (a : Int) (b : Int) = (l.drop a).take (b - a) := by
  rw [pySlice_nonneg l _ _ (by omega) (by omega)]
  simp

/-- `l[0:b]` for a nonnegative bound is `take`. -/
theorem pySlice_zero (l : List α) (b : Int) (hb : 0 ≤ b) :
    pySlice l 0 b = l.take b.toNat := by
  rw [pySlice_nonneg l 0 b le_rfl hb]
  simp

theorem pySlice_length_le (l : List α) (b : Int) (hb : 0 ≤ b) :
    ((pySlice l 0 b).length : Int) ≤ b := by
  rw [pySlice_zero l b hb]
  simp only [List.length_take]
  omega

theorem pySlice_sublist (l : List α) (a b : Int) : (pySlice l a b).Sublist l := by
  simp only [pySlice]
  exact (List.drop_sublist _ _).trans (List.take_sublist _ l)

/- ### The chunker window layout (claim C1) -/

/-- The chunk emitted for window number `k` of the window walk that starts at
token offset `j`: window `k` holds tokens `[j + k*step, j + k*step + size)`. -/
def windowChunk (size : Int) (s : Nat) (paper_id : String) (tokens : List String)
    (j ci k : Nat) : Chunk :=
  { chunk_id := paper_id ++ "_chunk_" ++ format04 (ci + k)
    paper_id := paper_id
    text := " ".intercalate ((tokens.drop (j + k * s)).take size.toNat)
    index := ((ci + k : Nat) : Int) }

theorem windowChunk_shift (size : Int) (s : Nat) (paper_id : String) (tokens : List String)
    (j ci k : Nat) :
    windowChunk size s paper_id tokens (j + s) (ci + 1) k =
      windowChunk size s paper_id tokens j ci (k + 1) := by
  unfold windowChunk
  have h1 : ci + 1 + k = ci + (k + 1) := by omega
  have h2 : j + s + k * s = j + (k + 1) * s := by ring
  rw [h1, h2]

theorem chunkLoop_spec (size step : Int) (paper_id : String) (tokens : List String)
    (hstep : 1 ≤ step) (hsize : step ≤ size) :
    ∀ (fuel : Nat) (j ci : Nat), j < tokens.length → tokens.length - j ≤ fuel →
    ∃ m : Nat, 1 ≤ m ∧
      chunkLoop size step paper_id tokens fuel (j : Int) ci =
        (List.range m).map (windowChunk size step.toNat paper_id tokens j ci) ∧
      (∀ k, k + 1 < m → j + k * step.toNat + size.toNat < tokens.length) ∧
      j + (m - 1) * step.toNat < tokens.length ∧
      tokens.length ≤ j + (m - 1) * step.toNat + size.toNat := by
  intro fuel
  induction fuel with
  | zero => intro j ci hj hfuel; omega
  | succ fuel ih =>
    intro j ci hj hfuel
    have hjlt : (j : Int) < (tokens.length : Int) := by exact_mod_cast hj
    have hsz0 : (0:Int) ≤ size := by omega
    have hseg : pySlice tokens (j : Int) ((j : Int) + size) =
        (tokens.drop j).take size.toNat := by
      have : (j : Int) + size = ((j + size.toNat : Nat) : Int) := by push_cast; omega
      rw [this, pySlice_natCast]
      congr 1
      omega
    by_cases hend : (tokens.length : Int) ≤ (j : Int) + size
    · refine ⟨1, le_rfl, ?_, by omega, by simpa using hj, by omega⟩
      simp only [chunkLoop, if_pos hjlt, if_pos hend, hseg]
      rw [show List.range 1 = [0] from rfl]
      simp [windowChunk]
    · have hstep' : 1 ≤ step.toNat := by omega
      have hj' : j + step.toNat < tokens.length := by
        have : (j : Int) + size < (tokens.length : Int) := by omega
        have h2 : (j : Int) + step ≤ (j : Int) + size := by omega
        have h3 : ((j + step.toNat : Nat) : Int) = (j : Int) + step := by push_cast; omega
        omega
      obtain ⟨m', hm1, heq, hfull, hlast1, hlast2⟩ :=
        ih (j + step.toNat) (ci + 1) hj' (by omega)
      refine ⟨m' + 1, by omega, ?_, ?_, ?_, ?_⟩
      · simp only [chunkLoop, if_pos hjlt, if_neg hend, hseg]
        have hcast : (j : Int) + step = ((j + step.toNat : Nat) : Int) := by push_cast; omega
        rw [hcast, heq, List.range_succ_eq_map, List.map_cons, List.map_map]
        congr 1
        · simp [windowChunk]
        · apply List.map_congr_left
          intro k _
          simp only [Function.comp_apply, Nat.succ_eq_add_one]
          exact windowChunk_shift size step.toNat paper_id tokens j ci k
      · intro k hk
        rcases k with _ | k'
        · have : (j : Int) + size < (tokens.length : Int) := by omega
          omega
        · have := hfull k' (by omega)
          have harith : j + (k' + 1) * step.toNat = j + step.toNat + k' * step.toNat := by ring
          omega
      · obtain ⟨t, rfl⟩ : ∃ t, m' = t + 1 := ⟨m' - 1, by omega⟩
        have harith : (t + 1 + 1 - 1) * step.toNat =
            step.toNat + (t + 1 - 1) * step.toNat := by
          simp only [Nat.add_sub_cancel]
          ring
        omega
      · obtain ⟨t, rfl⟩ : ∃ t, m' = t + 1 := ⟨m' - 1, by omega⟩
        have harith : (t + 1 + 1 - 1) * step.toNat =
            step.toNat + (t + 1 - 1) * step.toNat := by
          simp only [Nat.add_sub_cancel]
          ring
        omega
/-- **C1.** For every non-empty whitespace-tokenizable text with `T` tokens and
chunker configuration `size > overlap ≥ 0`, `Chunker.chunk_text` produces
chunks whose token windows are placed at offsets `0, step, 2*step, ...` with
`step = size - overlap`; together they cover all `T` tokens; every window
except possibly the last has exactly `size` tokens; and the last window's end
is exactly `T`. -/
theorem chunk_text_window_layout (size overlap : Int) (h0 : 0 ≤ overlap) (h1 : overlap < size)
    (paper_id text : String) (tokens : List String) (htok : pySplit text = tokens)
    (hne : tokens ≠ []) (chunks : List Chunk)
    (hchunks : Chunker.chunk_text ⟨size, overlap⟩ paper_id text = chunks)
    (s : Nat) (hs : s = (size - overlap).toNat) :
    chunks ≠ [] ∧
    (∀ k, ∀ hk : k < chunks.length,
        chunks[k] =
          { chunk_id := paper_id ++ "_chunk_" ++ format04 k
            paper_id := paper_id
            text := " ".intercalate ((tokens.drop (k * s)).take size.toNat)
            index := (k : Int) }) ∧
    (∀ t, t < tokens.length →
        ∃ k, k < chunks.length ∧ k * s ≤ t ∧ t < k * s + size.toNat) ∧
    (∀ k, k + 1 < chunks.length →
        ((tokens.drop (k * s)).take size.toNat).length = size.toNat) ∧
    (chunks.length - 1) * s +
        ((tokens.drop ((chunks.length - 1) * s)).take size.toNat).length = tokens.length := by
  subst hs
  have htok' : tokens = pySplit text := htok.symm
  subst htok'
  have hT : 0 < (pySplit text).length := List.length_pos.mpr hne
  obtain ⟨m, hm1, heq, hfull, hlast1, hlast2⟩ :=
    chunkLoop_spec size (size - overlap) paper_id (pySplit text) (by omega) (by omega)
      ((pySplit text).length + 1) 0 0 hT (by omega)
  rw [Nat.cast_zero] at heq
  have hchunks' : chunks = (List.range m).map
      (windowChunk size (size - overlap).toNat paper_id (pySplit text) 0 0) := by
    rw [← hchunks]
    simp only [Chunker.chunk_text, if_neg hne]
    exact heq
  subst hchunks'
  have hlen : ((List.range m).map
      (windowChunk size (size - overlap).toNat paper_id (pySplit text) 0 0)).length = m := by
    simp
  have hssz : (size - overlap).toNat ≤ size.toNat := by omega
  have hs1 : 1 ≤ (size - overlap).toNat := by omega
  refine ⟨?_, ?_, ?_, ?_, ?_⟩
  · intro habs
    have := congrArg List.length habs
    simp at this
    omega
  · intro k hk
    have hkm : k < m := by omega
    simp only [List.getElem_map, List.getElem_range]
    simp [windowChunk]
  · intro t ht
    by_cases hq : t / (size - overlap).toNat < m
    · refine ⟨t / (size - overlap).toNat, by omega, Nat.div_mul_le_self t _, ?_⟩
      have hds := Nat.div_add_mod' t (size - overlap).toNat
      have hmod : t % (size - overlap).toNat < (size - overlap).toNat :=
        Nat.mod_lt t (by omega)
      omega
    · refine ⟨m - 1, by omega, ?_, by omega⟩
      have h2 : (m - 1) * (size - overlap).toNat ≤ (t / (size - overlap).toNat) *
          (size - overlap).toNat := Nat.mul_le_mul_right _ (by omega)
      have h3 : (t / (size - overlap).toNat) * (size - overlap).toNat ≤ t :=
        Nat.div_mul_le_self t _
      omega
  · intro k hk
    have := hfull k (by omega)
    simp only [List.length_take, List.length_drop]
    omega
  · rw [hlen]
    simp only [List.length_take, List.length_drop]
    omega

/-- Witness for C1 at the specification's own example: tokens `[A B C D E F]`,
`size = 4`, `overlap = 1` (so `step = 3`). -/
theorem chunk_text_window_layout_witness :
    Chunker.chunk_text ⟨4, 1⟩ "p" "A B C D E F" ≠ [] ∧
    (∀ k, ∀ hk : k < (Chunker.chunk_text ⟨4, 1⟩ "p" "A B C D E F").length,
        (Chunker.chunk_text ⟨4, 1⟩ "p" "A B C D E F")[k] =
          { chunk_id := "p" ++ "_chunk_" ++ format04 k
            paper_id := "p"
            text := " ".intercalate (((pySplit "A B C D E F").drop (k * 3)).take (4:Int).toNat)
            index := (k : Int) }) ∧
    (∀ t, t < (pySplit "A B C D E F").length →
        ∃ k, k < (Chunker.chunk_text ⟨4, 1⟩ "p" "A B C D E F").length ∧
          k * 3 ≤ t ∧ t < k * 3 + (4:Int).toNat) ∧
    (∀ k, k + 1 < (Chunker.chunk_text ⟨4, 1⟩ "p" "A B C D E F").length →
        (((pySplit "A B C D E F").drop (k * 3)).take (4:Int).toNat).length = (4:Int).toNat) ∧
    ((Chunker.chunk_text ⟨4, 1⟩ "p" "A B C D E F").length - 1) * 3 +
        (((pySplit "A B C D E F").drop
            (((Chunker.chunk_text ⟨4, 1⟩ "p" "A B C D E F").length - 1) * 3)).take
          (4:Int).toNat).length = (pySplit "A B C D E F").length :=
  chunk_text_window_layout 4 1 (by decide) (by decide) "p" "A B C D E F" _ rfl
    (by decide) _ rfl 3 (by decide)

/-- **C8.** Constructing a `Chunker` with `overlap ≥ size` fails with the
configuration error (never silently corrected), and for any validly
constructed `Chunker`, chunking an input with no whitespace tokens returns
the empty sequence rather than raising an error. -/
theorem chunker_config_validation (size overlap : Int) (paper_id text : String)
    (hempty : pySplit text = []) :
    (overlap ≥ size →
      Chunker.mk? size overlap =
        .error "chunk_overlap_tokens must be smaller than chunk_size_tokens") ∧
    (∀ ch : Chunker, Chunker.mk? size overlap = .ok ch →
      ch.chunk_text paper_id text = []) := by
  constructor
  · intro h
    simp [Chunker.mk?, h]
  · intro ch _
    simp [Chunker.chunk_text, hempty]

/-- Witness for C8: `size = 2, overlap = 5` is rejected; text `"   "` has no
tokens. -/
theorem chunker_config_validation_witness :
    ((5:Int) ≥ (2:Int) →
      Chunker.mk? 2 5 =
        .error "chunk_overlap_tokens must be smaller than chunk_size_tokens") ∧
    (∀ ch : Chunker, Chunker.mk? 2 5 = .ok ch → ch.chunk_text "p" "   " = []) :=
  chunker_config_validation 2 5 "p" "   " (by decide)

/- ### Evidence proposer (`Benchmark/generation/evidence_proposer.py`) -/

/-- The descending-by-score ordering used by `sorted(..., key=lambda x: x.score,
reverse=True)`; Python's sort is stable, i.e. candidates with equal scores keep
their input order. -/
def byScoreDesc (a b : EvidenceCandidate) : Prop := b.score ≤ a.score

instance : DecidableRel byScoreDesc := fun a b => inferInstanceAs (Decidable (b.score ≤ a.score))

/-- `EvidenceProposer.propose`: sort the candidates descending by score
(stable), truncate with the Python slice `[:max_candidates]`, and return the
chunk ids. -/
def EvidenceProposer.propose (retrieval_candidates : List EvidenceCandidate)
    (max_candidates : Int) : List String :=
  (pySlice (List.insertionSort byScoreDesc retrieval_candidates) 0 max_candidates).map
    (·.chunk_id)

/-- The score that the candidate list assigns to a chunk id (first match). -/
def lookupScore (cands : List EvidenceCandidate) (cid : String) : ℚ :=
  ((cands.find? (fun c => c.chunk_id = cid)).map (·.score)).getD 0

theorem lookupScore_eq (cands : List EvidenceCandidate)
    (hids : (cands.map (·.chunk_id)).Nodup) (c : EvidenceCandidate) (hc : c ∈ cands) :
    lookupScore cands c.chunk_id = c.score := by
  induction cands with
  | nil => cases hc
  | cons d rest ih =>
    simp only [List.map_cons, List.nodup_cons, List.mem_map] at hids
    rcases List.mem_cons.mp hc with rfl | hmem
    · simp [lookupScore, List.find?_cons]
    · have hne : d.chunk_id ≠ c.chunk_id := by
        intro habs
        exact hids.1 ⟨c, hmem, habs.symm⟩
      simp only [lookupScore, List.find?_cons]
      rw [show (decide (d.chunk_id = c.chunk_id)) = false by simpa using hne]
      exact ih hids.2 hmem

/-- Filtering by a predicate that is false at `a` ignores an ordered insert
of `a`. -/
theorem filter_orderedInsert_neg (r : α → α → Prop) [DecidableRel r] (p : α → Bool)
    (a : α) (ha : p a = false) :
    ∀ l : List α, (l.orderedInsert r a).filter p = l.filter p := by
  intro l
  induction l with
  | nil => simp [List.orderedInsert, List.filter, ha]
  | cons b l ih =>
    by_cases hr : r a b
    · simp [List.orderedInsert, hr, List.filter, ha]
    · simp only [List.orderedInsert, if_neg hr, List.filter]
      cases hb : p b <;> simp [hb, ih]

/-- Filtering by a predicate that holds at `a` and forces the relation toward
`a` pulls `a` to the front of an ordered insert. -/
theorem filter_orderedInsert_pos (r : α → α → Prop) [DecidableRel r] (p : α → Bool)
    (a : α) (ha : p a = true) (hp : ∀ b, p b = true → r a b) :
    ∀ l : List α, (l.orderedInsert r a).filter p = a :: l.filter p := by
  intro l
  induction l with
  | nil => simp [List.orderedInsert, List.filter, ha]
  | cons b l ih =>
    by_cases hr : r a b
    · simp [List.orderedInsert, hr, List.filter, ha]
    · have hb : p b = false := by
        cases hb : p b
        · rfl
        · exact absurd (hp b hb) hr
      simp only [List.orderedInsert, if_neg hr, List.filter, hb]
      exact ih

/-- Stability of the sort, phrased through filters: sorting does not reorder
(or change) the sublist of elements of any mutually-tied class. -/
theorem filter_insertionSort (r : α → α → Prop) [DecidableRel r] (p : α → Bool)
    (hp : ∀ a b, p a = true → p b = true → r a b) :
    ∀ l : List α, (List.insertionSort r l).filter p = l.filter p := by
  intro l
  induction l with
  | nil => rfl
  | cons a l ih =>
    simp only [List.insertionSort]
    cases ha : p a
    · rw [filter_orderedInsert_neg r p a ha, ih]
      simp [List.filter, ha]
    · rw [filter_orderedInsert_pos r p a ha (fun b hb => hp a b ha hb), ih]
      simp [List.filter, ha]

/-- A filtered prefix is a prefix of the filtered list. -/
theorem filter_take_eq_take_filter (p : α → Bool) :
    ∀ (l : List α) (n : Nat), ∃ k, (l.take n).filter p = (l.filter p).take k := by
  intro l
  induction l with
  | nil => intro n; exact ⟨0, by simp⟩
  | cons a l ih =>
    intro n
    cases n with
    | zero => exact ⟨0, by simp⟩
    | succ n =>
      obtain ⟨k, hk⟩ := ih n
      cases ha : p a
      · refine ⟨k, ?_⟩
        simp only [List.take_succ_cons, List.filter, ha]
        exact hk
      · refine ⟨k + 1, ?_⟩
        simp only [List.take_succ_cons, List.filter, ha]
        rw [hk]

/-- **C9, counterexample.** As stated over *every* `max_candidates` value and
*every* candidate list, the claim fails: (a) with `max_candidates = -1` the
Python slice drops the last element instead of returning
`min(max_candidates, len(candidates))` elements; (b) with duplicate input
chunk ids the result can contain duplicates. -/
theorem propose_claim_counterexample :
    (¬ ((EvidenceProposer.propose
          [⟨"A", 1, 1⟩, ⟨"B", 2, 2⟩] (-1)).length : Int) = min (-1 : Int) 2) ∧
    ¬ (EvidenceProposer.propose [⟨"A", 1, 1⟩, ⟨"A", 2, 2⟩] 3).Nodup := by
  constructor
  · decide
  · decide

/-- **C9, amended.** For every list of evidence candidates with pairwise
distinct chunk ids and every `max_candidates ≥ 0`, `EvidenceProposer.propose`
returns exactly `min(max_candidates, len(candidates))` chunk ids, which are a
subset of the input candidates' ids with no duplicates, ordered by descending
score with ties preserving input order (stable sort). -/
theorem propose_spec (cands : List EvidenceCandidate) (mx : Int) (hmx : 0 ≤ mx)
    (hids : (cands.map (·.chunk_id)).Nodup) :
    ((EvidenceProposer.propose cands mx).length : Int) = min mx (cands.length : Int) ∧
    (∀ cid ∈ EvidenceProposer.propose cands mx, cid ∈ cands.map (·.chunk_id)) ∧
    (EvidenceProposer.propose cands mx).Nodup ∧
    ((EvidenceProposer.propose cands mx).map (lookupScore cands)).Pairwise (· ≥ ·) ∧
    (∀ q : ℚ, ∃ k, (EvidenceProposer.propose cands mx).filter
          (fun cid => lookupScore cands cid = q) =
        ((cands.filter (fun c => c.score = q)).map (·.chunk_id)).take k) := by
  haveI htot : IsTotal EvidenceCandidate byScoreDesc :=
    ⟨fun a b => le_total b.score a.score⟩
  haveI htrans : IsTrans EvidenceCandidate byScoreDesc :=
    ⟨fun _ _ _ hab hbc => le_trans hbc hab⟩
  have hslice : EvidenceProposer.propose cands mx =
      ((List.insertionSort byScoreDesc cands).take mx.toNat).map (·.chunk_id) := by
    simp only [EvidenceProposer.propose, pySlice_zero _ _ hmx]
  have hsubl : ((List.insertionSort byScoreDesc cands).take mx.toNat).Sublist
      (List.insertionSort byScoreDesc cands) := List.take_sublist _ _
  have hperm := List.perm_insertionSort byScoreDesc cands
  have hmem : ∀ c ∈ (List.insertionSort byScoreDesc cands).take mx.toNat, c ∈ cands :=
    fun c hc => hperm.mem_iff.mp (hsubl.mem hc)
  refine ⟨?_, ?_, ?_, ?_, ?_⟩
  · rw [hslice]
    simp only [List.length_map, List.length_take, List.length_insertionSort]
    omega
  · intro cid hcid
    rw [hslice] at hcid
    obtain ⟨c, hc, rfl⟩ := List.mem_map.mp hcid
    exact List.mem_map.mpr ⟨c, hmem c hc, rfl⟩
  · rw [hslice]
    have hnodup : ((List.insertionSort byScoreDesc cands).map (·.chunk_id)).Nodup :=
      ((hperm.map (·.chunk_id)).nodup_iff).mpr hids
    rw [List.map_take]
    exact List.Nodup.sublist (List.take_sublist _ _) hnodup
  · rw [hslice]
    have hsorted : ((List.insertionSort byScoreDesc cands).take mx.toNat).Pairwise
        byScoreDesc :=
      (List.sorted_insertionSort byScoreDesc cands).sublist hsubl
    rw [List.pairwise_map, List.pairwise_map]
    refine hsorted.imp_of_mem ?_
    intro a b ha hb hr
    rw [lookupScore_eq cands hids a (hmem a ha), lookupScore_eq cands hids b (hmem b hb)]
    exact hr
  · intro q
    rw [hslice, List.filter_map]
    have hcongr : ((List.insertionSort byScoreDesc cands).take mx.toNat).filter
          ((fun cid => decide (lookupScore cands cid = q)) ∘ (·.chunk_id)) =
        ((List.insertionSort byScoreDesc cands).take mx.toNat).filter
          (fun c => decide (c.score = q)) := by
      refine List.filter_congr ?_
      intro c hc
      simp only [Function.comp_apply, decide_eq_decide]
      rw [lookupScore_eq cands hids c (hmem c hc)]
    rw [hcongr]
    obtain ⟨k, hk⟩ := filter_take_eq_take_filter (fun c => decide (c.score = q))
      (List.insertionSort byScoreDesc cands) mx.toNat
    rw [hk, filter_insertionSort byScoreDesc _
      (fun a b (hpa : decide (a.score = q) = true) (hpb : decide (b.score = q) = true) => by
        simp only [decide_eq_true_eq] at hpa hpb
        show b.score ≤ a.score
        rw [hpa, hpb])]
    exact ⟨k, by rw [List.map_take]⟩

/-- Witness for the amended C9 at two distinct-id candidates and
`max_candidates = 1`. -/
theorem propose_spec_witness :
    ((EvidenceProposer.propose [⟨"A", 1, 1⟩, ⟨"B", 2, 2⟩] 1).length : Int) =
        min (1 : Int) ((2 : Nat) : Int) ∧
    (∀ cid ∈ EvidenceProposer.propose [⟨"A", 1, 1⟩, ⟨"B", 2, 2⟩] 1,
        cid ∈ ([⟨"A", 1, 1⟩, ⟨"B", 2, 2⟩] : List EvidenceCandidate).map (·.chunk_id)) ∧
    (EvidenceProposer.propose [⟨"A", 1, 1⟩, ⟨"B", 2, 2⟩] 1).Nodup ∧
    ((EvidenceProposer.propose [⟨"A", 1, 1⟩, ⟨"B", 2, 2⟩] 1).map
        (lookupScore [⟨"A", 1, 1⟩, ⟨"B", 2, 2⟩])).Pairwise (· ≥ ·) ∧
    (∀ q : ℚ, ∃ k, (EvidenceProposer.propose [⟨"A", 1, 1⟩, ⟨"B", 2, 2⟩] 1).filter
          (fun cid => lookupScore [⟨"A", 1, 1⟩, ⟨"B", 2, 2⟩] cid = q) =
        ((([⟨"A", 1, 1⟩, ⟨"B", 2, 2⟩] : List EvidenceCandidate).filter
            (fun c => c.score = q)).map (·.chunk_id)).take k) := by
  have h := propose_spec [⟨"A", 1, 1⟩, ⟨"B", 2, 2⟩] 1 (by decide) (by decide)
  simpa using h

/- ### In-memory retrieval (`Benchmark/services/retrieval_service.py`,
`Benchmark/embedding/vector_index.py`) -/

/-- The slice of `AppConfig` (`Benchmark/config.py`) that `retrieve_generous`
reads.  The dataclass performs no validation of these fields. -/
structure AppConfig where
  retrieval_top_k : Int
  retrieval_threshold : ℚ
  retrieval_cap : Int

/-- Python `dict` assignment `d[k] = v`: update the value in place if the key
is present (keeping its position), else append the new pair at the end. -/
def dictSet {κ β : Type _} [DecidableEq κ] : List (κ × β) → κ → β → List (κ × β)
  | [], k, v => [(k, v)]
  | (k', v') :: rest, k, v =>
    if k' = k then (k, v) :: rest else (k', v') :: dictSet rest k v

/-- Python `d.get(k)` / `k in d`: first (and only) entry with the key. -/
def dictGet? {κ β : Type _} [DecidableEq κ] (d : List (κ × β)) (k : κ) : Option β :=
  (d.find? (fun e => e.1 = k)).map (·.2)

/-- Descending-score ordering on `(chunk, score)` pairs, as used by
`scored.sort(key=lambda x: x[1], reverse=True)` (a stable sort). -/
def pairScoreDesc {α : Type _} (a b : α × ℚ) : Prop := b.2 ≤ a.2

instance {α : Type _} : DecidableRel (pairScoreDesc (α := α)) :=
  fun a b => inferInstanceAs (Decidable (b.2 ≤ a.2))

/-- `InMemoryVectorIndex.search` after all chunks were `add`ed: score every
row, sort descending by score (stable), truncate to `limit`.  The similarity
function `sim` abstracts `SimpleTextEmbedder.embed` + cosine (floating-point
arithmetic whose exact values none of the claims depend on); `sim q c.text`
is the score of chunk `c` for query `q`. -/
def searchScored (sim : String → String → ℚ) (question : String)
    (chunks : List Chunk) (limit : Int) : List (Chunk × ℚ) :=
  pySlice (List.insertionSort pairScoreDesc
    (chunks.map (fun c => (c, sim question c.text)))) 0 limit

/-- The neighbor-adding inner loop of `retrieve_generous`: for
`neighbor_idx in (chunk.index - 1, chunk.index + 1)`, skip negative indices,
and copy the neighbor's score from `by_id` when the derived id is present. -/
def addNeighbors (by_id : List (String × (Chunk × ℚ))) (c : Chunk)
    (sel : List (String × ℚ)) : List (String × ℚ) :=
  [c.index - 1, c.index + 1].foldl
    (fun sel (neighbor_idx : Int) =>
      if neighbor_idx < 0 then sel
      else
        let neighbor_id := c.paper_id ++ "_chunk_" ++ format04 neighbor_idx.toNat
        match dictGet? by_id neighbor_id with
        | some (_, score) => dictSet sel neighbor_id score
        | none => sel)
    sel

/-- The `for chunk, score in top_hits` loop of `retrieve_generous`. -/
def topHitsLoop (by_id : List (String × (Chunk × ℚ))) :
    List (Chunk × ℚ) → List (String × ℚ) → List (String × ℚ)
  | [], sel => sel
  | (c, score) :: rest, sel =>
    topHitsLoop by_id rest (addNeighbors by_id c (dictSet sel c.chunk_id score))

/-- The second walk of the full ranked list: add any chunk whose score meets
the threshold, breaking as soon as the selection size reaches the cap. -/
def thresholdLoop (threshold : ℚ) (cap : Int) :
    List (Chunk × ℚ) → List (String × ℚ) → List (String × ℚ)
  | [], sel => sel
  | (c, score) :: rest, sel =>
    let sel1 := if threshold ≤ score then dictSet sel c.chunk_id score else sel
    if cap ≤ (sel1.length : Int) then sel1 else thresholdLoop threshold cap rest sel1

/-- `RetrievalService.retrieve_generous`: build the ephemeral index over
`chunks`, compute the full ranked list, select top-k hits plus adjacent
neighbors plus threshold recall (capped), then sort the selection map
descending by score, truncate to `cap`, and assign dense ranks `1..N`. -/
def retrieve_generous (sim : String → String → ℚ) (config : AppConfig)
    (question : String) (chunks : List Chunk) : List EvidenceCandidate :=
  let scored := searchScored sim question chunks
    (max (chunks.length : Int) config.retrieval_cap)
  let by_id := scored.foldl (fun d (p : Chunk × ℚ) => dictSet d p.1.chunk_id p) []
  let top_hits := pySlice scored 0 config.retrieval_top_k
  let sel0 := topHitsLoop by_id top_hits []
  let sel1 := thresholdLoop config.retrieval_threshold config.retrieval_cap scored sel0
  let ranked := pySlice (List.insertionSort pairScoreDesc sel1) 0 config.retrieval_cap
  ranked.enum.map (fun ip =>
    { chunk_id := ip.2.1, score := ip.2.2, rank := (ip.1 : Int) + 1 })

/-- **C2, counterexample.** With a negative configured cap (`AppConfig` does
not validate its fields) the final Python slice `[:cap]` drops elements from
the end instead of bounding the result: two equal-scored chunks and
`cap = -1` return one candidate, and `1 ≤ -1` is false. -/
theorem retrieve_generous_claim_counterexample :
    ¬ (((retrieve_generous (fun _ _ => 0) ⟨8, 0, -1⟩ "q"
          [⟨"x", "p", "t1", 0⟩, ⟨"y", "p", "t2", 5⟩]).length : Int) ≤
        ((⟨8, 0, -1⟩ : AppConfig).retrieval_cap)) := by
  decide

/-- Every entry of the selection map has a witnessing `(chunk, score)` pair in
the full ranked list whose chunk id is the entry's key. -/
def selGood (scored : List (Chunk × ℚ)) (sel : List (String × ℚ)) : Prop :=
  ∀ e ∈ sel, ∃ c : Chunk, (c, e.2) ∈ scored ∧ c.chunk_id = e.1

theorem mem_dictSet {κ β : Type _} [DecidableEq κ] :
    ∀ (d : List (κ × β)) (k : κ) (v : β) (e : κ × β),
      e ∈ dictSet d k v → e = (k, v) ∨ e ∈ d := by
  intro d k v e
  induction d with
  | nil => intro h; simpa [dictSet] using h
  | cons p rest ih =>
    simp only [dictSet]
    by_cases hk : p.1 = k
    · rw [if_pos hk]
      intro h
      rcases List.mem_cons.mp h with rfl | h
      · exact Or.inl rfl
      · exact Or.inr (List.mem_cons_of_mem _ h)
    · rw [if_neg hk]
      intro h
      rcases List.mem_cons.mp h with rfl | h
      · exact Or.inr (List.mem_cons_self _ _)
      · rcases ih h with h | h
        · exact Or.inl h
        · exact Or.inr (List.mem_cons_of_mem _ h)

theorem selGood_dictSet (scored : List (Chunk × ℚ)) (sel : List (String × ℚ))
    (hsel : selGood scored sel) (c : Chunk) (v : ℚ) (k : String)
    (hc : (c, v) ∈ scored) (hk : c.chunk_id = k) :
    selGood scored (dictSet sel k v) := by
  intro e he
  rcases mem_dictSet sel k v e he with rfl | he
  · exact ⟨c, hc, hk⟩
  · exact hsel e he

/-- Invariant of the `by_id` dict comprehension: every entry is a scored pair
keyed by its chunk id. -/
theorem by_id_inv (full : List (Chunk × ℚ)) :
    ∀ (l : List (Chunk × ℚ)) (acc : List (String × (Chunk × ℚ))),
      (∀ p ∈ l, p ∈ full) →
      (∀ e ∈ acc, e.2 ∈ full ∧ e.2.1.chunk_id = e.1) →
      ∀ e ∈ l.foldl (fun d (p : Chunk × ℚ) => dictSet d p.1.chunk_id p) acc,
        e.2 ∈ full ∧ e.2.1.chunk_id = e.1 := by
  intro l
  induction l with
  | nil => intro acc _ hacc e he; exact hacc e he
  | cons p rest ih =>
    intro acc hl hacc e he
    refine ih (dictSet acc p.1.chunk_id p) (fun q hq => hl q (List.mem_cons_of_mem _ hq))
      ?_ e he
    intro f hf
    rcases mem_dictSet acc p.1.chunk_id p f hf with rfl | hf
    · exact ⟨hl p (List.mem_cons_self _ _), rfl⟩
    · exact hacc f hf

/-- What `dictGet?` returns was an entry of the dict. -/
theorem dictGet?_mem {κ β : Type _} [DecidableEq κ] (d : List (κ × β)) (k : κ) (v : β)
    (h : dictGet? d k = some v) : (k, v) ∈ d := by
  simp only [dictGet?, Option.map_eq_some'] at h
  obtain ⟨e, he, rfl⟩ := h
  have hmem := List.mem_of_find?_eq_some he
  have hkey := List.find?_some he
  simp only [decide_eq_true_eq] at hkey
  rwa [show (k, e.2) = e from by rw [← hkey]] 

theorem selGood_addNeighbors (scored : List (Chunk × ℚ))
    (by_id : List (String × (Chunk × ℚ)))
    (hby : ∀ e ∈ by_id, e.2 ∈ scored ∧ e.2.1.chunk_id = e.1)
    (c : Chunk) (sel : List (String × ℚ)) (hsel : selGood scored sel) :
    selGood scored (addNeighbors by_id c sel) := by
  simp only [addNeighbors, List.foldl_cons, List.foldl_nil]
  have step : ∀ (s : List (String × ℚ)) (i : Int), selGood scored s →
      selGood scored (if i < 0 then s
        else
          let neighbor_id := c.paper_id ++ "_chunk_" ++ format04 i.toNat
          match dictGet? by_id neighbor_id with
          | some (_, score) => dictSet s neighbor_id score
          | none => s) := by
    intro s i hs
    by_cases hi : i < 0
    · simpa [hi] using hs
    · simp only [if_neg hi]
      cases hget : dictGet? by_id (c.paper_id ++ "_chunk_" ++ format04 i.toNat) with
      | none => exact hs
      | some p =>
        obtain ⟨nc, ns⟩ := p
        have hmem := dictGet?_mem _ _ _ hget
        obtain ⟨h1, h2⟩ := hby _ hmem
        exact selGood_dictSet scored s hs nc ns _ h1 h2
  exact step _ _ (step _ _ hsel)

theorem selGood_topHitsLoop (scored : List (Chunk × ℚ))
    (by_id : List (String × (Chunk × ℚ)))
    (hby : ∀ e ∈ by_id, e.2 ∈ scored ∧ e.2.1.chunk_id = e.1) :
    ∀ (hits : List (Chunk × ℚ)) (sel : List (String × ℚ)),
      (∀ p ∈ hits, p ∈ scored) → selGood scored sel →
      selGood scored (topHitsLoop by_id hits sel) := by
  intro hits
  induction hits with
  | nil => intro sel _ hsel; exact hsel
  | cons p rest ih =>
    intro sel hmem hsel
    obtain ⟨c, score⟩ := p
    simp only [topHitsLoop]
    refine ih _ (fun q hq => hmem q (List.mem_cons_of_mem _ hq)) ?_
    refine selGood_addNeighbors scored by_id hby c _ ?_
    exact selGood_dictSet scored sel hsel c score _ (hmem _ (List.mem_cons_self _ _)) rfl

theorem selGood_thresholdLoop (scored : List (Chunk × ℚ)) (threshold : ℚ) (cap : Int) :
    ∀ (walk : List (Chunk × ℚ)) (sel : List (String × ℚ)),
      (∀ p ∈ walk, p ∈ scored) → selGood scored sel →
      selGood scored (thresholdLoop threshold cap walk sel) := by
  intro walk
  induction walk with
  | nil => intro sel _ hsel; exact hsel
  | cons p rest ih =>
    intro sel hmem hsel
    obtain ⟨c, score⟩ := p
    simp only [thresholdLoop]
    have hsel1 : selGood scored
        (if threshold ≤ score then dictSet sel c.chunk_id score else sel) := by
      by_cases ht : threshold ≤ score
      · rw [if_pos ht]
        exact selGood_dictSet scored sel hsel c score _ (hmem _ (List.mem_cons_self _ _)) rfl
      · rwa [if_neg ht]
    by_cases hcap : cap ≤ ((if threshold ≤ score then dictSet sel c.chunk_id score
        else sel).length : Int)
    · rw [if_pos hcap]
      exact hsel1
    · rw [if_neg hcap]
      exact ih _ (fun q hq => hmem q (List.mem_cons_of_mem _ hq)) hsel1

instance {α : Type _} : IsTotal (α × ℚ) pairScoreDesc :=
  ⟨fun a b => le_total b.2 a.2⟩

instance {α : Type _} : IsTrans (α × ℚ) pairScoreDesc :=
  ⟨fun _ _ _ hab hbc => le_trans hbc hab⟩

theorem snd_mem_of_mem_enum {α : Type _} {l : List α} {ip : Nat × α} (h : ip ∈ l.enum) :
    ip.2 ∈ l := by
  obtain ⟨i, x⟩ := ip
  have hx := List.mk_mem_enum_iff_getElem?.mp h
  exact List.getElem?_mem hx

/-- The selection map reaching the final sort satisfies `selGood`: every entry
carries a score copied from the full ranked list for its chunk id. -/
theorem sel1_selGood (sim : String → String → ℚ) (config : AppConfig)
    (question : String) (chunks : List Chunk) :
    selGood (searchScored sim question chunks (max (chunks.length : Int) config.retrieval_cap))
      (thresholdLoop config.retrieval_threshold config.retrieval_cap
        (searchScored sim question chunks (max (chunks.length : Int) config.retrieval_cap))
        (topHitsLoop
          ((searchScored sim question chunks
              (max (chunks.length : Int) config.retrieval_cap)).foldl
            (fun d (p : Chunk × ℚ) => dictSet d p.1.chunk_id p) [])
          (pySlice (searchScored sim question chunks
              (max (chunks.length : Int) config.retrieval_cap)) 0 config.retrieval_top_k)
          [])) := by
  refine selGood_thresholdLoop _ _ _ _ _ (fun p hp => hp) ?_
  refine selGood_topHitsLoop _ _ ?_ _ _ ?_ ?_
  · exact by_id_inv _ _ [] (fun p hp => hp) (by intro e he; cases he)
  · exact fun p hp => (pySlice_sublist _ _ _).mem hp
  · intro e he
    cases he

/-- **C2, amended.** For every query, chunk list, similarity function and
configuration with `cap ≥ 0`, `retrieve_generous` returns at most `cap`
candidates; every returned candidate's score is the score some pair of the
full ranked list (step 2) assigns to that chunk id (never synthesized); and
the returned ranks are a dense `1..N` sequence whose scores are
non-increasing in rank order. -/
theorem retrieve_generous_spec (sim : String → String → ℚ) (config : AppConfig)
    (hcap : 0 ≤ config.retrieval_cap) (question : String) (chunks : List Chunk) :
    ((retrieve_generous sim config question chunks).length : Int) ≤ config.retrieval_cap ∧
    (∀ e ∈ retrieve_generous sim config question chunks,
      ∃ c : Chunk, (c, e.score) ∈ searchScored sim question chunks
          (max (chunks.length : Int) config.retrieval_cap) ∧ c.chunk_id = e.chunk_id) ∧
    (retrieve_generous sim config question chunks).map (·.rank) =
      (List.range (retrieve_generous sim config question chunks).length).map
        (fun i : Nat => (i : Int) + 1) ∧
    ((retrieve_generous sim config question chunks).map (·.score)).Pairwise (· ≥ ·) := by
  have hsel := sel1_selGood sim config question chunks
  set scored := searchScored sim question chunks
    (max (chunks.length : Int) config.retrieval_cap) with hscored
  set sel1 := thresholdLoop config.retrieval_threshold config.retrieval_cap scored
    (topHitsLoop
      (scored.foldl (fun d (p : Chunk × ℚ) => dictSet d p.1.chunk_id p) [])
      (pySlice scored 0 config.retrieval_top_k) []) with hsel1
  set ranked := pySlice (List.insertionSort pairScoreDesc sel1) 0 config.retrieval_cap
    with hranked
  have hres : retrieve_generous sim config question chunks =
      ranked.enum.map (fun ip =>
        { chunk_id := ip.2.1, score := ip.2.2, rank := (ip.1 : Int) + 1 }) := rfl
  refine ⟨?_, ?_, ?_, ?_⟩
  · rw [hres]
    simp only [List.length_map, List.enum_length]
    exact pySlice_length_le _ _ hcap
  · intro e he
    rw [hres] at he
    obtain ⟨ip, hip, rfl⟩ := List.mem_map.mp he
    have hp : ip.2 ∈ ranked := snd_mem_of_mem_enum hip
    have hp1 : ip.2 ∈ List.insertionSort pairScoreDesc sel1 :=
      (pySlice_sublist _ _ _).mem hp
    have hp2 : ip.2 ∈ sel1 := (List.mem_insertionSort pairScoreDesc).mp hp1
    obtain ⟨c, hc, hid⟩ := hsel ip.2 hp2
    exact ⟨c, hc, hid⟩
  · rw [hres]
    simp only [List.map_map, List.length_map, List.enum_length]
    have hfun : ((fun e : EvidenceCandidate => e.rank) ∘ (fun ip : Nat × (String × ℚ) =>
        ({ chunk_id := ip.2.1, score := ip.2.2,
           rank := (ip.1 : Int) + 1 } : EvidenceCandidate))) =
        ((fun i : Nat => (i : Int) + 1) ∘ Prod.fst) := rfl
    rw [hfun, ← List.map_map, List.enum_map_fst]
  · rw [hres]
    simp only [List.map_map]
    have hfun : ((fun e : EvidenceCandidate => e.score) ∘ (fun ip : Nat × (String × ℚ) =>
        ({ chunk_id := ip.2.1, score := ip.2.2,
           rank := (ip.1 : Int) + 1 } : EvidenceCandidate))) =
        ((fun p : String × ℚ => p.2) ∘ Prod.snd) := rfl
    rw [hfun, ← List.map_map, List.enum_map_snd]
    have hsorted : (List.insertionSort pairScoreDesc sel1).Pairwise pairScoreDesc :=
      List.sorted_insertionSort pairScoreDesc sel1
    have hranked_sorted : ranked.Pairwise pairScoreDesc :=
      hsorted.sublist (pySlice_sublist _ _ _)
    rw [List.pairwise_map]
    exact hranked_sorted.imp_of_mem (fun _ _ h => h)

/-- Witness for the amended C2 at a one-chunk corpus and the default-like
configuration `top_k = 8`, `threshold = 0`, `cap = 25`. -/
theorem retrieve_generous_spec_witness :
    ((retrieve_generous (fun _ _ => 0) ⟨8, 0, 25⟩ "q" [⟨"x", "p", "t", 0⟩]).length : Int) ≤
        (⟨8, 0, 25⟩ : AppConfig).retrieval_cap ∧
    (∀ e ∈ retrieve_generous (fun _ _ => 0) ⟨8, 0, 25⟩ "q" [⟨"x", "p", "t", 0⟩],
      ∃ c : Chunk, (c, e.score) ∈ searchScored (fun _ _ => 0) "q" [⟨"x", "p", "t", 0⟩]
          (max (([⟨"x", "p", "t", 0⟩] : List Chunk).length : Int)
            (⟨8, 0, 25⟩ : AppConfig).retrieval_cap) ∧ c.chunk_id = e.chunk_id) ∧
    (retrieve_generous (fun _ _ => 0) ⟨8, 0, 25⟩ "q" [⟨"x", "p", "t", 0⟩]).map (·.rank) =
      (List.range (retrieve_generous (fun _ _ => 0) ⟨8, 0, 25⟩ "q"
          [⟨"x", "p", "t", 0⟩]).length).map (fun i : Nat => (i : Int) + 1) ∧
    ((retrieve_generous (fun _ _ => 0) ⟨8, 0, 25⟩ "q" [⟨"x", "p", "t", 0⟩]).map
        (·.score)).Pairwise (· ≥ ·) :=
  retrieve_generous_spec (fun _ _ => 0) ⟨8, 0, 25⟩ (by decide) "q" [⟨"x", "p", "t", 0⟩]

/-- **C3, counterexample.** As stated (only `top_k ≥ 1` and non-empty chunks
assumed), the claim fails: (a) with `cap = 0` the result is empty, so the top
chunk is absent; (b) with duplicate chunk ids, a neighbor update can overwrite
the top chunk's selected score with the score of a different chunk sharing its
id, pushing it past the cap even when `cap = 1`. -/
theorem retrieve_generous_top_claim_counterexample :
    ((searchScored (fun _ _ => 0) "q" [⟨"x", "p", "t", 0⟩]
          (max (([⟨"x", "p", "t", 0⟩] : List Chunk).length : Int)
            ((⟨1, 99, 0⟩ : AppConfig).retrieval_cap))).head?.map (·.1.chunk_id) =
        some "x" ∧
      retrieve_generous (fun _ _ => 0) ⟨1, 99, 0⟩ "q" [⟨"x", "p", "t", 0⟩] = []) ∧
    ((searchScored (fun _ t => if t = "a" then 10 else if t = "c" then 5 else 0) "q"
          [⟨"p_chunk_0002", "z", "a", 0⟩, ⟨"pc", "p", "c", 1⟩, ⟨"p_chunk_0002", "q", "b", 7⟩]
          (max (([⟨"p_chunk_0002", "z", "a", 0⟩, ⟨"pc", "p", "c", 1⟩,
              ⟨"p_chunk_0002", "q", "b", 7⟩] : List Chunk).length : Int)
            ((⟨8, 99, 1⟩ : AppConfig).retrieval_cap))).head?.map (·.1.chunk_id) =
        some "p_chunk_0002" ∧
      "p_chunk_0002" ∉
        (retrieve_generous (fun _ t => if t = "a" then 10 else if t = "c" then 5 else 0)
          ⟨8, 99, 1⟩ "q"
          [⟨"p_chunk_0002", "z", "a", 0⟩, ⟨"pc", "p", "c", 1⟩,
            ⟨"p_chunk_0002", "q", "b", 7⟩]).map (·.chunk_id)) := by
  constructor
  · constructor
    · decide
    · decide
  · constructor
    · decide
    · decide

/-- Invariant for claim C3: the selection map starts with the top entry
`(hid, hs)` (Python dicts keep the position of a key on update, and `dictSet`
appends new keys at the end), and no selected score exceeds `hs`. -/
def headSel (hid : String) (hs : ℚ) (sel : List (String × ℚ)) : Prop :=
  sel.head? = some (hid, hs) ∧ ∀ e ∈ sel, e.2 ≤ hs

theorem headSel_dictSet (hid : String) (hs : ℚ) (sel : List (String × ℚ))
    (h : headSel hid hs sel) (k : String) (v : ℚ)
    (hcond : k = hid → v = hs) (hv : v ≤ hs) :
    headSel hid hs (dictSet sel k v) := by
  obtain ⟨hhead, hall⟩ := h
  cases sel with
  | nil => cases hhead
  | cons e0 rest =>
    have he0 : e0 = (hid, hs) := by
      simpa using hhead
    subst he0
    constructor
    · by_cases hk : hid = k
      · have hv' : v = hs := hcond hk.symm
        subst hv'
        simp [dictSet, hk]
      · simp [dictSet, hk]
    · intro e he
      by_cases hk : hid = k
      · rw [show dictSet ((hid, hs) :: rest) k v = (k, v) :: rest by simp [dictSet, hk]] at he
        rcases List.mem_cons.mp he with rfl | he
        · exact hv
        · exact hall e (List.mem_cons_of_mem _ he)
      · rw [show dictSet ((hid, hs) :: rest) k v = (hid, hs) :: dictSet rest k v by
            simp [dictSet, hk]] at he
        rcases List.mem_cons.mp he with rfl | he
        · exact le_refl _
        · rcases mem_dictSet rest k v e he with rfl | he
          · exact hv
          · exact hall e (List.mem_cons_of_mem _ he)

/-- The admissibility condition claim C3 extracts from sortedness and
distinctness of the full ranked list: any scored pair keyed by `k` has value
at most `hs`, and exactly `hs` if `k` is the top id. -/
def admissible (scored : List (Chunk × ℚ)) (hid : String) (hs : ℚ) : Prop :=
  ∀ (c : Chunk) (v : ℚ) (k : String), (c, v) ∈ scored → c.chunk_id = k →
    (k = hid → v = hs) ∧ v ≤ hs

theorem headSel_addNeighbors (scored : List (Chunk × ℚ)) (hid : String) (hs : ℚ)
    (hadm : admissible scored hid hs)
    (by_id : List (String × (Chunk × ℚ)))
    (hby : ∀ e ∈ by_id, e.2 ∈ scored ∧ e.2.1.chunk_id = e.1)
    (c : Chunk) (sel : List (String × ℚ)) (h : headSel hid hs sel) :
    headSel hid hs (addNeighbors by_id c sel) := by
  simp only [addNeighbors, List.foldl_cons, List.foldl_nil]
  have step : ∀ (s : List (String × ℚ)) (i : Int), headSel hid hs s →
      headSel hid hs (if i < 0 then s
        else
          let neighbor_id := c.paper_id ++ "_chunk_" ++ format04 i.toNat
          match dictGet? by_id neighbor_id with
          | some (_, score) => dictSet s neighbor_id score
          | none => s) := by
    intro s i hsgood
    by_cases hi : i < 0
    · simpa [hi] using hsgood
    · simp only [if_neg hi]
      cases hget : dictGet? by_id (c.paper_id ++ "_chunk_" ++ format04 i.toNat) with
      | none => exact hsgood
      | some p =>
        obtain ⟨nc, ns⟩ := p
        have hmem := dictGet?_mem _ _ _ hget
        obtain ⟨h1, h2⟩ := hby _ hmem
        obtain ⟨hc1, hc2⟩ := hadm nc ns _ h1 h2
        exact headSel_dictSet hid hs s hsgood _ ns hc1 hc2
  exact step _ _ (step _ _ h)

theorem headSel_topHitsLoop (scored : List (Chunk × ℚ)) (hid : String) (hs : ℚ)
    (hadm : admissible scored hid hs)
    (by_id : List (String × (Chunk × ℚ)))
    (hby : ∀ e ∈ by_id, e.2 ∈ scored ∧ e.2.1.chunk_id = e.1) :
    ∀ (hits : List (Chunk × ℚ)) (sel : List (String × ℚ)),
      (∀ p ∈ hits, p ∈ scored) → headSel hid hs sel →
      headSel hid hs (topHitsLoop by_id hits sel) := by
  intro hits
  induction hits with
  | nil => intro sel _ h; exact h
  | cons p rest ih =>
    intro sel hmem h
    obtain ⟨c, score⟩ := p
    simp only [topHitsLoop]
    refine ih _ (fun q hq => hmem q (List.mem_cons_of_mem _ hq)) ?_
    refine headSel_addNeighbors scored hid hs hadm by_id hby c _ ?_
    obtain ⟨hc1, hc2⟩ := hadm c score c.chunk_id (hmem _ (List.mem_cons_self _ _)) rfl
    exact headSel_dictSet hid hs sel h _ score hc1 hc2

theorem headSel_thresholdLoop (scored : List (Chunk × ℚ)) (hid : String) (hs : ℚ)
    (hadm : admissible scored hid hs) (threshold : ℚ) (cap : Int) :
    ∀ (walk : List (Chunk × ℚ)) (sel : List (String × ℚ)),
      (∀ p ∈ walk, p ∈ scored) → headSel hid hs sel →
      headSel hid hs (thresholdLoop threshold cap walk sel) := by
  intro walk
  induction walk with
  | nil => intro sel _ h; exact h
  | cons p rest ih =>
    intro sel hmem h
    obtain ⟨c, score⟩ := p
    simp only [thresholdLoop]
    have h1 : headSel hid hs
        (if threshold ≤ score then dictSet sel c.chunk_id score else sel) := by
      by_cases ht : threshold ≤ score
      · rw [if_pos ht]
        obtain ⟨hc1, hc2⟩ := hadm c score c.chunk_id (hmem _ (List.mem_cons_self _ _)) rfl
        exact headSel_dictSet hid hs sel h _ score hc1 hc2
      · rwa [if_neg ht]
    by_cases hcap : cap ≤ ((if threshold ≤ score then dictSet sel c.chunk_id score
        else sel).length : Int)
    · rw [if_pos hcap]
      exact h1
    · rw [if_neg hcap]
      exact ih _ (fun q hq => hmem q (List.mem_cons_of_mem _ hq)) h1

/-- **C3, amended.** For every query, similarity function and configuration
with `top_k ≥ 1` and `cap ≥ 1`, and every non-empty chunk list with pairwise
distinct chunk ids, the first (highest-scoring) entry of the full ranked list
has its chunk id present in the result of `retrieve_generous`. -/
theorem retrieve_generous_top_present (sim : String → String → ℚ) (config : AppConfig)
    (htopk : 1 ≤ config.retrieval_top_k) (hcap : 1 ≤ config.retrieval_cap)
    (question : String) (chunks : List Chunk) (hne : chunks ≠ [])
    (hids : (chunks.map (·.chunk_id)).Nodup) (tc : Chunk) (ts : ℚ)
    (htop : (searchScored sim question chunks
        (max (chunks.length : Int) config.retrieval_cap)).head? = some (tc, ts)) :
    tc.chunk_id ∈ (retrieve_generous sim config question chunks).map (·.chunk_id) := by
  have hL0 : (0:Int) ≤ max (chunks.length : Int) config.retrieval_cap :=
    le_trans (Int.natCast_nonneg _) (le_max_left _ _)
  set base := chunks.map (fun c => (c, sim question c.text)) with hbase
  set scored := searchScored sim question chunks
    (max (chunks.length : Int) config.retrieval_cap) with hscoreddef
  have hscored : scored = List.insertionSort pairScoreDesc base := by
    rw [hscoreddef, searchScored, pySlice_zero _ _ hL0]
    apply List.take_of_length_le
    rw [List.length_insertionSort, List.length_map]
    omega
  have hsorted : scored.Pairwise pairScoreDesc := by
    rw [hscored]
    exact List.sorted_insertionSort _ _
  have hperm : scored.Perm base := by
    rw [hscored]
    exact List.perm_insertionSort _ _
  have hidsS : (scored.map (·.1.chunk_id)).Nodup := by
    refine ((hperm.map (·.1.chunk_id)).nodup_iff).mpr ?_
    rw [hbase, List.map_map]
    exact hids
  obtain ⟨s0, t, hscons⟩ : ∃ s0 t, scored = s0 :: t := by
    cases hsc : scored with
    | nil => rw [hsc] at htop; cases htop
    | cons a t => exact ⟨a, t, rfl⟩
  have hs0 : s0 = (tc, ts) := by
    rw [hscons] at htop
    simpa using htop
  subst hs0
  have hadm : admissible scored tc.chunk_id ts := by
    intro c v k hmem hk
    rw [hscons] at hmem
    constructor
    · intro hk2
      rcases List.mem_cons.mp hmem with heq | hmem'
      · exact congrArg Prod.snd heq
      · exfalso
        rw [hscons] at hidsS
        simp only [List.map_cons, List.nodup_cons, List.mem_map] at hidsS
        exact hidsS.1 ⟨(c, v), hmem', by rw [hk, hk2]⟩
    · rcases List.mem_cons.mp hmem with heq | hmem'
      · rw [show v = ts from congrArg Prod.snd heq]
      · rw [hscons] at hsorted
        exact (List.pairwise_cons.mp hsorted).1 (c, v) hmem'
  set by_id := scored.foldl (fun d (p : Chunk × ℚ) => dictSet d p.1.chunk_id p) []
    with hbyiddef
  have hby : ∀ e ∈ by_id, e.2 ∈ scored ∧ e.2.1.chunk_id = e.1 := by
    rw [hbyiddef]
    exact by_id_inv scored scored [] (fun p hp => hp) (fun e he => absurd he (List.not_mem_nil e))
  have htk0 : (0:Int) ≤ config.retrieval_top_k := by omega
  have htophits : pySlice scored 0 config.retrieval_top_k =
      (tc, ts) :: t.take (config.retrieval_top_k.toNat - 1) := by
    rw [pySlice_zero _ _ htk0, hscons]
    obtain ⟨n, hn⟩ : ∃ n, config.retrieval_top_k.toNat = n + 1 :=
      ⟨config.retrieval_top_k.toNat - 1, by omega⟩
    rw [hn, List.take_succ_cons]
    simp
  have hsel0good : headSel tc.chunk_id ts
      (topHitsLoop by_id (pySlice scored 0 config.retrieval_top_k) []) := by
    rw [htophits]
    simp only [topHitsLoop]
    refine headSel_topHitsLoop scored _ _ hadm by_id hby _ _ ?_ ?_
    · intro p hp
      rw [hscons]
      exact List.mem_cons_of_mem _ ((List.take_sublist _ _).mem hp)
    · refine headSel_addNeighbors scored _ _ hadm by_id hby tc _ ?_
      constructor
      · simp [dictSet]
      · intro e he
        simp only [dictSet, List.mem_singleton] at he
        rw [he]
  set sel1 := thresholdLoop config.retrieval_threshold config.retrieval_cap scored
    (topHitsLoop by_id (pySlice scored 0 config.retrieval_top_k) []) with hsel1def
  have hsel1good : headSel tc.chunk_id ts sel1 := by
    rw [hsel1def]
    exact headSel_thresholdLoop scored _ _ hadm _ _ scored _ (fun p hp => hp) hsel0good
  obtain ⟨hhead, hall⟩ := hsel1good
  have hres : retrieve_generous sim config question chunks =
      (pySlice (List.insertionSort pairScoreDesc sel1) 0 config.retrieval_cap).enum.map
        (fun ip => { chunk_id := ip.2.1, score := ip.2.2, rank := (ip.1 : Int) + 1 }) := rfl
  cases hsel1c : sel1 with
  | nil =>
    rw [hsel1c] at hhead
    cases hhead
  | cons e0 rest =>
    have he0 : e0 = (tc.chunk_id, ts) := by
      rw [hsel1c] at hhead
      simpa using hhead
    subst he0
    have hsortcons : List.insertionSort pairScoreDesc ((tc.chunk_id, ts) :: rest) =
        (tc.chunk_id, ts) :: List.insertionSort pairScoreDesc rest := by
      refine List.insertionSort_cons _ ?_
      intro b hb
      exact hall b (by rw [hsel1c]; exact List.mem_cons_of_mem _ hb)
    have hcap0 : (0:Int) ≤ config.retrieval_cap := by omega
    have hranked : pySlice (List.insertionSort pairScoreDesc sel1) 0 config.retrieval_cap =
        (tc.chunk_id, ts) ::
          (List.insertionSort pairScoreDesc rest).take (config.retrieval_cap.toNat - 1) := by
      rw [hsel1c, hsortcons, pySlice_zero _ _ hcap0]
      obtain ⟨n, hn⟩ : ∃ n, config.retrieval_cap.toNat = n + 1 :=
        ⟨config.retrieval_cap.toNat - 1, by omega⟩
      rw [hn, List.take_succ_cons]
      simp
    rw [hres, hranked, List.enum_cons, List.map_cons, List.map_cons]
    exact List.mem_cons_self _ _

/-- Witness for the amended C3: two distinct-id chunks, distinct scores,
`top_k = 1`, `cap = 1`. -/
theorem retrieve_generous_top_present_witness :
    (⟨"x", "p", "ta", 0⟩ : Chunk).chunk_id ∈
      (retrieve_generous (fun _ t => if t = "ta" then 2 else 1) ⟨1, 99, 1⟩ "q"
        [⟨"x", "p", "ta", 0⟩, ⟨"y", "p", "tb", 5⟩]).map (·.chunk_id) :=
  retrieve_generous_top_present (fun _ t => if t = "ta" then 2 else 1) ⟨1, 99, 1⟩
    (by decide) (by decide) "q" [⟨"x", "p", "ta", 0⟩, ⟨"y", "p", "tb", 5⟩]
    (by decide) (by decide) ⟨"x", "p", "ta", 0⟩ 2 (by decide)

/- ### Persistent index builder (`Benchmark/embedding/build_faiss_rag_index.py`) -/

/-- A JSON scalar as it appears in the metadata rows (ints and strings only). -/
inductive JsonVal where
  | jint (n : Int)
  | jstr (s : String)
deriving DecidableEq

/-- `ChunkRow` dataclass of the index builder. -/
structure ChunkRow where
  faiss_id : Int
  paper_id : String
  chunk_id : String
  file_path : String
deriving DecidableEq

/-- `json.dumps(row.__dict__)`, as an ordered field list: `dataclass`
`__dict__` iterates fields in declaration order and `json.dumps` preserves it. -/
def rowJson (r : ChunkRow) : List (String × JsonVal) :=
  [("faiss_id", .jint r.faiss_id), ("paper_id", .jstr r.paper_id),
   ("chunk_id", .jstr r.chunk_id), ("file_path", .jstr r.file_path)]

/-- A chunk file as the builder sees it: `path.parent.name` (the paper
directory), `path.stem`, and `str(path.resolve())`. -/
structure SrcFile where
  parent_name : String
  stem : String
  resolved_path : String
deriving DecidableEq

/-- Python string `<` (lexicographic by code point, shorter string first on a
tie prefix), on explicit character lists. -/
def charListLt : List Char → List Char → Bool
  | [], [] => false
  | [], _ :: _ => true
  | _ :: _, [] => false
  | a :: as, b :: bs => if a < b then true else if b < a then false else charListLt as bs

/-- The file name of a chunk file (Python compares `Path` objects under one
root part-by-part, which here reduces to comparing `(parent.name, name)`). -/
def SrcFile.fileName (f : SrcFile) : String := f.stem ++ ".txt"

/-- Python `Path.__lt__` for two chunk files under the same root. -/
def pathLt (a b : SrcFile) : Bool :=
  charListLt a.parent_name.data b.parent_name.data ||
    (a.parent_name == b.parent_name && charListLt a.fileName.data b.fileName.data)

/-- The ordering used by `sorted(...)` over paths (Python's stable sort by
`<`): `a` may stay before `b` exactly when `b < a` fails. -/
def pathOrd (a b : SrcFile) : Prop := ¬ pathLt b a = true

instance : DecidableRel pathOrd := fun a b => inferInstanceAs (Decidable (¬ _ = true))

/-- `discover_chunks`: glob all chunk files and return them in stable sorted
order (the file-system scan is abstracted as the input list `files`). -/
def discover_chunks (files : List SrcFile) : List SrcFile :=
  List.insertionSort pathOrd files

/-- `chunk_rows_from_files`: assign `faiss_id = i` by enumeration order. -/
def chunk_rows_from_files (files : List SrcFile) : List ChunkRow :=
  files.enum.map (fun ip =>
    { faiss_id := (ip.1 : Int)
      paper_id := ip.2.parent_name
      chunk_id := ip.2.stem
      file_path := ip.2.resolved_path })

/-- The build manifest written next to the index. -/
structure IndexManifest where
  created_at : String
  embedding_model : String
  metric : String
  dimension : Int
  num_vectors : Int
  index_file : String
  metadata_file : String
deriving DecidableEq

/-- The three artifacts of the output directory, `none` when the file does not
exist.  `ι` is the type of the serialized in-memory index object. -/
structure FaissOutputs (ι : Type _) where
  index_file : Option ι
  metadata_file : Option (List (List (String × JsonVal)))
  manifest_file : Option IndexManifest
deriving DecidableEq

/-- `write_outputs`: under `overwrite = false`, abort with an error naming the
already-existing artifacts before writing anything; otherwise persist the
index, one metadata row per line in row order, and the manifest. -/
def write_outputs {ι : Type _} (store : FaissOutputs ι) (index : ι)
    (rows : List ChunkRow) (model metric : String) (dimension num_vectors : Int)
    (created_at : String) (overwrite : Bool) : Except String (FaissOutputs ι) :=
  let existing :=
    (if store.index_file.isSome then ["chunks.faiss"] else []) ++
    (if store.metadata_file.isSome then ["chunks_metadata.jsonl"] else []) ++
    (if store.manifest_file.isSome then ["index_manifest.json"] else [])
  if ¬ overwrite ∧ existing ≠ [] then
    .error ("Output files already exist (" ++ ", ".intercalate existing ++
      "). Use --overwrite to replace them.")
  else
    .ok
      { index_file := some index
        metadata_file := some (rows.map rowJson)
        manifest_file := some
          { created_at := created_at
            embedding_model := model
            metric := metric
            dimension := dimension
            num_vectors := num_vectors
            index_file := "chunks.faiss"
            metadata_file := "chunks_metadata.jsonl" } }

/-- The artifact names that already exist in the output directory, in the
order `write_outputs` checks them. -/
def conflictNames {ι : Type _} (store : FaissOutputs ι) : List String :=
  (if store.index_file.isSome then ["chunks.faiss"] else []) ++
  (if store.metadata_file.isSome then ["chunks_metadata.jsonl"] else []) ++
  (if store.manifest_file.isSome then ["index_manifest.json"] else [])

/-- The exact error `write_outputs` raises on an output conflict. -/
def conflictMsg {ι : Type _} (store : FaissOutputs ι) : String :=
  "Output files already exist (" ++ ", ".intercalate (conflictNames store) ++
    "). Use --overwrite to replace them."

theorem write_outputs_error_of_conflict {ι : Type _} (store : FaissOutputs ι) (index : ι)
    (rows : List ChunkRow) (model metric : String) (dimension num_vectors : Int)
    (created_at : String)
    (hconf : store.index_file.isSome ∨ store.metadata_file.isSome ∨
      store.manifest_file.isSome) :
    write_outputs store index rows model metric dimension num_vectors created_at false =
      .error (conflictMsg store) := by
  have hex : ((if store.index_file.isSome then ["chunks.faiss"] else []) ++
      (if store.metadata_file.isSome then ["chunks_metadata.jsonl"] else []) ++
      (if store.manifest_file.isSome then ["index_manifest.json"] else [])) ≠ [] := by
    rcases hconf with h | h | h <;> simp [h]
  simp only [write_outputs]
  rw [if_pos ⟨by simp, hex⟩]
  rfl

theorem write_outputs_ok_shape {ι : Type _} (store store' : FaissOutputs ι) (index : ι)
    (rows : List ChunkRow) (model metric : String) (dimension num_vectors : Int)
    (created_at : String) (overwrite : Bool)
    (h : write_outputs store index rows model metric dimension num_vectors created_at
        overwrite = .ok store') :
    store' =
      { index_file := some index
        metadata_file := some (rows.map rowJson)
        manifest_file := some
          { created_at := created_at
            embedding_model := model
            metric := metric
            dimension := dimension
            num_vectors := num_vectors
            index_file := "chunks.faiss"
            metadata_file := "chunks_metadata.jsonl" } } := by
  simp only [write_outputs] at h
  by_cases hc : (¬ overwrite = true ∧
      ((if store.index_file.isSome then ["chunks.faiss"] else []) ++
       (if store.metadata_file.isSome then ["chunks_metadata.jsonl"] else []) ++
       (if store.manifest_file.isSome then ["index_manifest.json"] else [])) ≠ [])
  · rw [if_pos hc] at h
    cases h
  · rw [if_neg hc] at h
    exact (Except.ok.inj h).symm

/-- **C6.** With `overwrite` not requested, `write_outputs` aborts with an
error naming exactly the conflicting artifact paths whenever any of the three
output artifacts already exists; the `Except.error` result carries no updated
file store, so nothing is written and the first run's artifacts stay as they
were.  Consequently a second run against the output store produced by any
successful run fails with the conflict error naming all three files. -/
theorem write_outputs_overwrite_policy {ι : Type _} (store store' : FaissOutputs ι)
    (index index₂ : ι) (rows rows₂ : List ChunkRow) (model model₂ metric metric₂ : String)
    (dimension dimension₂ num_vectors num_vectors₂ : Int)
    (created_at created_at₂ : String) (overwrite : Bool)
    (hconf : store.index_file.isSome ∨ store.metadata_file.isSome ∨
      store.manifest_file.isSome) :
    (write_outputs store index rows model metric dimension num_vectors created_at false =
      .error ("Output files already exist (" ++
        ", ".intercalate (conflictNames store) ++ "). Use --overwrite to replace them.")) ∧
    (write_outputs store index rows model metric dimension num_vectors created_at
        overwrite = .ok store' →
      write_outputs store' index₂ rows₂ model₂ metric₂ dimension₂ num_vectors₂ created_at₂
          false =
        .error ("Output files already exist (chunks.faiss, chunks_metadata.jsonl, index_manifest.json). Use --overwrite to replace them.")) := by
  constructor
  · exact write_outputs_error_of_conflict store index rows model metric dimension
      num_vectors created_at hconf
  · intro h
    have hshape := write_outputs_ok_shape store store' index rows model metric dimension
      num_vectors created_at overwrite h
    subst hshape
    rw [write_outputs_error_of_conflict _ index₂ rows₂ model₂ metric₂ dimension₂
      num_vectors₂ created_at₂ (Or.inl (by simp))]
    rfl

/-- Witness for C6 at a store whose index artifact already exists. -/
theorem write_outputs_overwrite_policy_witness :
    (write_outputs (ι := Unit) ⟨some (), none, none⟩ () [] "m" "cosine" 3 1 "t" false =
      .error ("Output files already exist (" ++
        ", ".intercalate (conflictNames (ι := Unit) ⟨some (), none, none⟩) ++
        "). Use --overwrite to replace them.")) ∧
    (write_outputs (ι := Unit) ⟨some (), none, none⟩ () [] "m" "cosine" 3 1 "t" true =
        .ok ⟨some (), some [], some ⟨"t", "m", "cosine", 3, 1, "chunks.faiss",
          "chunks_metadata.jsonl"⟩⟩ →
      write_outputs (ι := Unit)
          (⟨some (), some [], some ⟨"t", "m", "cosine", 3, 1, "chunks.faiss",
            "chunks_metadata.jsonl"⟩⟩ : FaissOutputs Unit) () [] "m" "cosine" 3 1 "t"
          false =
        .error ("Output files already exist (chunks.faiss, chunks_metadata.jsonl, index_manifest.json). Use --overwrite to replace them.")) :=
  write_outputs_overwrite_policy (ι := Unit) ⟨some (), none, none⟩
    ⟨some (), some [], some ⟨"t", "m", "cosine", 3, 1, "chunks.faiss",
      "chunks_metadata.jsonl"⟩⟩ () () [] [] "m" "m" "cosine" "cosine" 3 3 1 1 "t" "t" true
    (Or.inl (by decide))

/-- **C4, counterexample.** The metadata rows are keyed `faiss_id`, not
`vector_id`: for a one-file corpus the single written line has field names
`[faiss_id, paper_id, chunk_id, file_path]` and no `vector_id` field. -/
theorem metadata_vector_id_counterexample :
    ((chunk_rows_from_files (discover_chunks
        [⟨"paper1", "paper1_chunk_0000", "/data/paper1/paper1_chunk_0000.txt"⟩])).map
      rowJson).length = 1 ∧
    "vector_id" ∉ (((chunk_rows_from_files (discover_chunks
        [⟨"paper1", "paper1_chunk_0000", "/data/paper1/paper1_chunk_0000.txt"⟩])).map
      rowJson).headD []).map Prod.fst ∧
    "faiss_id" ∈ (((chunk_rows_from_files (discover_chunks
        [⟨"paper1", "paper1_chunk_0000", "/data/paper1/paper1_chunk_0000.txt"⟩])).map
      rowJson).headD []).map Prod.fst := by
  refine ⟨by decide, by decide, by decide⟩

/-- **C4, amended.** Every metadata line written by the persistent index
builder is a JSON object with exactly the fields
`{faiss_id:int, paper_id:string, chunk_id:string, file_path:string}`, one
object per vector, with line order equal to vector-id order, and vector ids
assigned densely `0..N-1` in stable-sorted chunk-file discovery order. -/
theorem metadata_lines_layout {ι : Type _} (files : List SrcFile)
    (store store' : FaissOutputs ι) (index : ι) (model metric : String)
    (dimension num_vectors : Int) (created_at : String) (overwrite : Bool)
    (h : write_outputs store index (chunk_rows_from_files (discover_chunks files))
        model metric dimension num_vectors created_at overwrite = .ok store') :
    ∃ lines, store'.metadata_file = some lines ∧
      lines.length = (discover_chunks files).length ∧
      (∀ i, ∀ hi : i < lines.length,
        lines[i].map Prod.fst = ["faiss_id", "paper_id", "chunk_id", "file_path"]) ∧
      (∀ i, ∀ hi : i < lines.length, ∀ hi2 : i < (discover_chunks files).length,
        lines[i] = rowJson
          { faiss_id := (i : Int)
            paper_id := (discover_chunks files)[i].parent_name
            chunk_id := (discover_chunks files)[i].stem
            file_path := (discover_chunks files)[i].resolved_path }) ∧
      (chunk_rows_from_files (discover_chunks files)).map (·.faiss_id) =
        (List.range (discover_chunks files).length).map (fun i : Nat => (i : Int)) := by
  have hshape := write_outputs_ok_shape store store' index _ model metric dimension
    num_vectors created_at overwrite h
  subst hshape
  refine ⟨(chunk_rows_from_files (discover_chunks files)).map rowJson, rfl, ?_, ?_, ?_, ?_⟩
  · simp [chunk_rows_from_files]
  · intro i hi
    simp only [chunk_rows_from_files, List.map_map, List.getElem_map]
    rfl
  · intro i hi hi2
    simp only [chunk_rows_from_files, List.map_map, List.getElem_map, List.getElem_enum]
    rfl
  · simp only [chunk_rows_from_files, List.map_map]
    have hfun : ((fun r : ChunkRow => r.faiss_id) ∘ (fun ip : Nat × SrcFile =>
        ({ faiss_id := (ip.1 : Int), paper_id := ip.2.parent_name,
           chunk_id := ip.2.stem, file_path := ip.2.resolved_path } : ChunkRow))) =
        ((fun i : Nat => (i : Int)) ∘ Prod.fst) := rfl
    rw [hfun, ← List.map_map, List.enum_map_fst]

/-- Witness for the amended C4 at a one-file corpus. -/
theorem metadata_lines_layout_witness :
    ∃ lines, (FaissOutputs.mk (ι := Unit) (some ())
        (some ((chunk_rows_from_files (discover_chunks
          [⟨"paper1", "paper1_chunk_0000", "/data/paper1/paper1_chunk_0000.txt"⟩])).map
            rowJson))
        (some ⟨"t", "m", "cosine", 3, 1, "chunks.faiss",
          "chunks_metadata.jsonl"⟩)).metadata_file = some lines ∧
      lines.length = (discover_chunks
        [⟨"paper1", "paper1_chunk_0000", "/data/paper1/paper1_chunk_0000.txt"⟩]).length ∧
      (∀ i, ∀ hi : i < lines.length,
        lines[i].map Prod.fst = ["faiss_id", "paper_id", "chunk_id", "file_path"]) ∧
      (∀ i, ∀ hi : i < lines.length, ∀ hi2 : i < (discover_chunks
          [⟨"paper1", "paper1_chunk_0000", "/data/paper1/paper1_chunk_0000.txt"⟩]).length,
        lines[i] = rowJson
          { faiss_id := (i : Int)
            paper_id := (discover_chunks
              [⟨"paper1", "paper1_chunk_0000",
                "/data/paper1/paper1_chunk_0000.txt"⟩])[i].parent_name
            chunk_id := (discover_chunks
              [⟨"paper1", "paper1_chunk_0000",
                "/data/paper1/paper1_chunk_0000.txt"⟩])[i].stem
            file_path := (discover_chunks
              [⟨"paper1", "paper1_chunk_0000",
                "/data/paper1/paper1_chunk_0000.txt"⟩])[i].resolved_path }) ∧
      (chunk_rows_from_files (discover_chunks
          [⟨"paper1", "paper1_chunk_0000", "/data/paper1/paper1_chunk_0000.txt"⟩])).map
        (·.faiss_id) =
        (List.range (discover_chunks
          [⟨"paper1", "paper1_chunk_0000",
            "/data/paper1/paper1_chunk_0000.txt"⟩]).length).map (fun i : Nat => (i : Int)) :=
  metadata_lines_layout
    [⟨"paper1", "paper1_chunk_0000", "/data/paper1/paper1_chunk_0000.txt"⟩]
    ⟨none, none, none⟩ _ () "m" "cosine" 3 1 "t" false rfl

/- ### Chunk store (`Benchmark/ingestion/chunk_store.py`) -/

/-- Model of Python `str.split(sep)` for a one-character separator, on
character lists (adjacent separators produce empty pieces, like Python). -/
def splitChar (sep : Char) : List Char → List (List Char)
  | [] => [[]]
  | c :: cs =>
    match splitChar sep cs with
    | [] => [[]]
    | t :: ts => if c = sep then [] :: t :: ts else (c :: t) :: ts

/-- Model of Python `int(s)` for the strings that occur as chunk-index
suffixes: a non-empty all-digit string parses to its decimal value, anything
else raises (is `none`).  (Python's `int` also accepts signs and surrounding
whitespace, which cannot occur in a glob-matched file stem.) -/
def pyInt? (cs : List Char) : Option Int :=
  if cs ≠ [] ∧ cs.all (·.isDigit) then
    some (cs.foldl (fun acc c => acc * 10 + ((c.toNat : Int) - 48)) 0)
  else none

/-- A stored chunk file of one paper directory: its stem and text content. -/
structure StoredFile where
  stem : String
  content : String
deriving DecidableEq

/-- The on-disk file name (`stem` plus the `.txt` suffix used by the store). -/
def StoredFile.fileName (f : StoredFile) : String := f.stem ++ ".txt"

/-- The ordering used by `sorted(paper_dir.glob(...))`: paths in one directory
compare by file name, and Python's sort is stable. -/
def storedOrd (a b : StoredFile) : Prop := ¬ charListLt b.fileName.data a.fileName.data = true

instance : DecidableRel storedOrd := fun a b => inferInstanceAs (Decidable (¬ _ = true))

/-- `int(file.stem.split("_")[-1])`, the index reconstruction of
`ChunkStore.read_chunks`. -/
def parseStemIndex (stem : String) : Int :=
  ((pyInt? ((splitChar '_' stem.data).getLastD [])).getD 0)

/-- `ChunkStore.read_chunks`: glob the paper's chunk files (abstracted as the
input list `files`), sort them by file name, and rebuild a `Chunk` per file
with the index parsed from the stem's numeric suffix. -/
def ChunkStore.read_chunks (paper_id : String) (files : List StoredFile) : List Chunk :=
  (List.insertionSort storedOrd files).map (fun f =>
    { chunk_id := f.stem
      paper_id := paper_id
      text := f.content
      index := parseStemIndex f.stem })

theorem splitChar_of_not_mem (sep : Char) :
    ∀ d : List Char, sep ∉ d → splitChar sep d = [d] := by
  intro d
  induction d with
  | nil => intro _; rfl
  | cons c cs ih =>
    intro h
    have hc : ¬ c = sep := fun habs => h (habs ▸ List.mem_cons_self c cs)
    have hcs : sep ∉ cs := fun habs => h (List.mem_cons_of_mem _ habs)
    simp only [splitChar, ih hcs, if_neg hc]

theorem splitChar_append_len (sep : Char) (d : List Char) (hd : sep ∉ d) :
    ∀ xs : List Char, 2 ≤ (splitChar sep (xs ++ sep :: d)).length := by
  intro xs
  induction xs with
  | nil =>
    simp only [List.nil_append, splitChar, splitChar_of_not_mem sep d hd, if_pos rfl]
    simp
  | cons x xs ih =>
    simp only [List.cons_append, splitChar]
    cases hsc : splitChar sep (xs ++ sep :: d) with
    | nil => rw [hsc] at ih; simp at ih
    | cons t ts =>
      rw [hsc] at ih
      dsimp only
      by_cases hx : x = sep
      · rw [if_pos hx]
        simp only [List.length_cons] at ih ⊢
        omega
      · rw [if_neg hx]
        simpa using ih

theorem splitChar_append_getLastD (sep : Char) (d : List Char) (hd : sep ∉ d) :
    ∀ xs : List Char, (splitChar sep (xs ++ sep :: d)).getLastD [] = d := by
  intro xs
  induction xs with
  | nil =>
    simp only [List.nil_append, splitChar, splitChar_of_not_mem sep d hd, if_pos rfl]
    rfl
  | cons x xs ih =>
    simp only [List.cons_append, splitChar]
    cases hsc : splitChar sep (xs ++ sep :: d) with
    | nil =>
      have := splitChar_append_len sep d hd xs
      rw [hsc] at this
      simp at this
    | cons t ts =>
      have hlen := splitChar_append_len sep d hd xs
      rw [hsc] at hlen
      have hts : ts ≠ [] := by
        intro habs
        rw [habs] at hlen
        simp at hlen
      rw [hsc] at ih
      dsimp only
      by_cases hx : x = sep
      · rw [if_pos hx]
        rw [List.getLastD_cons] at ih ⊢
        rwa [List.getLastD_cons]
      · rw [if_neg hx]
        rw [List.getLastD_cons] at ih ⊢
        cases ts with
        | nil => exact absurd rfl hts
        | cons u us =>
          rw [List.getLastD_cons] at ih ⊢
          exact ih

theorem decDigit_isDigit : ∀ d, d < 10 → (decDigit d).isDigit = true := by decide

theorem decDigit_toNat : ∀ d, d < 10 → (decDigit d).toNat = 48 + d := by decide

theorem decDigit_ne_underscore : ∀ d, d < 10 → ¬ decDigit d = '_' := by decide

theorem format04_lt10000 (i : Nat) (h : i < 10000) :
    (format04 i).data =
      [decDigit (i / 1000), decDigit (i / 100 % 10), decDigit (i / 10 % 10),
        decDigit (i % 10)] := by
  simp [format04, h]

theorem parseStemIndex_convention (pid : String) (i : Nat) (h : i < 10000) :
    parseStemIndex (pid ++ "_chunk_" ++ format04 i) = (i : Int) := by
  have hb1 : i / 1000 < 10 := by omega
  have hb2 : i / 100 % 10 < 10 := by omega
  have hb3 : i / 10 % 10 < 10 := by omega
  have hb4 : i % 10 < 10 := by omega
  have hnd : '_' ∉ (format04 i).data := by
    rw [format04_lt10000 i h]
    intro hmem
    simp only [List.mem_cons, List.not_mem_nil, or_false] at hmem
    rcases hmem with h1 | h1 | h1 | h1
    · exact decDigit_ne_underscore _ hb1 h1.symm
    · exact decDigit_ne_underscore _ hb2 h1.symm
    · exact decDigit_ne_underscore _ hb3 h1.symm
    · exact decDigit_ne_underscore _ hb4 h1.symm
  have hdata : (pid ++ "_chunk_" ++ format04 i).data =
      (pid.data ++ ['_', 'c', 'h', 'u', 'n', 'k']) ++ '_' :: (format04 i).data := by
    rw [String.data_append, String.data_append,
      show ("_chunk_" : String).data = ['_', 'c', 'h', 'u', 'n', 'k', '_'] from rfl]
    simp [List.append_assoc]
  rw [parseStemIndex, hdata, splitChar_append_getLastD '_' _ hnd]
  rw [format04_lt10000 i h]
  rw [pyInt?, if_pos ?side]
  case side =>
    constructor
    · simp
    · simp only [List.all_cons, List.all_nil, Bool.and_true, Bool.and_eq_true]
      exact ⟨decDigit_isDigit _ hb1, decDigit_isDigit _ hb2, decDigit_isDigit _ hb3,
        decDigit_isDigit _ hb4⟩
  simp only [List.foldl_cons, List.foldl_nil, Option.getD_some]
  rw [decDigit_toNat _ hb1, decDigit_toNat _ hb2, decDigit_toNat _ hb3, decDigit_toNat _ hb4]
  push_cast
  omega

theorem charListLt_cons_lt {x y : Char} (h : x < y) (xs ys : List Char) :
    charListLt (x :: xs) (y :: ys) = true := by
  simp [charListLt, h]

theorem charListLt_cons_eq (x : Char) (xs ys : List Char) :
    charListLt (x :: xs) (x :: ys) = charListLt xs ys := by
  simp [charListLt, lt_irrefl]

theorem charListLt_asymm : ∀ a b : List Char,
    charListLt a b = true → charListLt b a = false := by
  intro a
  induction a with
  | nil =>
    intro b _
    cases b with
    | nil => rfl
    | cons y ys => rfl
  | cons x xs ih =>
    intro b hab
    cases b with
    | nil => cases hab
    | cons y ys =>
      simp only [charListLt] at hab ⊢
      by_cases hxy : x < y
      · rw [if_neg (lt_asymm hxy), if_pos hxy]
      · rw [if_neg hxy] at hab
        by_cases hyx : y < x
        · rw [if_pos hyx] at hab
          cases hab
        · rw [if_neg hyx] at hab
          rw [if_neg hxy, if_neg hyx]
          exact ih ys hab

theorem charListLt_trans : ∀ a b c : List Char,
    charListLt a b = true → charListLt b c = true → charListLt a c = true := by
  intro a
  induction a with
  | nil =>
    intro b c hab hbc
    cases b with
    | nil => cases hab
    | cons y ys =>
      cases c with
      | nil => cases hbc
      | cons z zs => rfl
  | cons x xs ih =>
    intro b c hab hbc
    cases b with
    | nil => cases hab
    | cons y ys =>
      cases c with
      | nil => cases hbc
      | cons z zs =>
        simp only [charListLt] at hab hbc ⊢
        by_cases hxy : x < y
        · by_cases hyz : y < z
          · rw [if_pos (lt_trans hxy hyz)]
          · rw [if_neg hyz] at hbc
            by_cases hzy : z < y
            · rw [if_pos hzy] at hbc
              cases hbc
            · have hyz' : y = z := le_antisymm (le_of_not_lt hzy) (le_of_not_lt hyz)
              rw [← hyz', if_pos hxy]
        · rw [if_neg hxy] at hab
          by_cases hyx : y < x
          · rw [if_pos hyx] at hab
            cases hab
          · have hxy' : x = y := le_antisymm (le_of_not_lt hyx) (le_of_not_lt hxy)
            subst hxy'
            rw [if_neg (lt_irrefl x)] at hab
            by_cases hxz : x < z
            · rw [if_pos hxz]
            · rw [if_neg hxz] at hbc ⊢
              by_cases hzx : z < x
              · rw [if_pos hzx] at hbc
                cases hbc
              · rw [if_neg hzx] at hbc ⊢
                exact ih ys zs hab hbc

theorem charListLt_trichotomy : ∀ a b : List Char,
    charListLt a b = true ∨ a = b ∨ charListLt b a = true := by
  intro a
  induction a with
  | nil =>
    intro b
    cases b with
    | nil => exact Or.inr (Or.inl rfl)
    | cons y ys => exact Or.inl rfl
  | cons x xs ih =>
    intro b
    cases b with
    | nil => exact Or.inr (Or.inr rfl)
    | cons y ys =>
      rcases lt_trichotomy x y with hxy | hxy | hxy
      · exact Or.inl (charListLt_cons_lt hxy xs ys)
      · subst hxy
        rcases ih ys with h | h | h
        · exact Or.inl (by rw [charListLt_cons_eq]; exact h)
        · exact Or.inr (Or.inl (by rw [h]))
        · exact Or.inr (Or.inr (by rw [charListLt_cons_eq]; exact h))
      · exact Or.inr (Or.inr (charListLt_cons_lt hxy ys xs))

theorem charListLt_append_same : ∀ p xs ys : List Char,
    charListLt (p ++ xs) (p ++ ys) = charListLt xs ys := by
  intro p
  induction p with
  | nil => intro xs ys; rfl
  | cons a p ih =>
    intro xs ys
    simp only [List.cons_append, charListLt_cons_eq]
    exact ih xs ys

theorem decDigit_lt : ∀ a, a < 10 → ∀ b, b < 10 →
    ((decDigit a < decDigit b) ↔ a < b) := by decide

theorem format04_append_lt (j i : Nat) (hj : j < i) (hi : i < 10000) (s s' : List Char) :
    charListLt ((format04 j).data ++ s) ((format04 i).data ++ s') = true := by
  rw [format04_lt10000 j (by omega), format04_lt10000 i hi]
  simp only [List.cons_append, List.nil_append]
  rcases Nat.lt_trichotomy (j / 1000) (i / 1000) with h1 | h1 | h1
  · exact charListLt_cons_lt ((decDigit_lt _ (by omega) _ (by omega)).mpr h1) _ _
  · rw [h1, charListLt_cons_eq]
    rcases Nat.lt_trichotomy (j / 100 % 10) (i / 100 % 10) with h2 | h2 | h2
    · exact charListLt_cons_lt ((decDigit_lt _ (by omega) _ (by omega)).mpr h2) _ _
    · rw [h2, charListLt_cons_eq]
      rcases Nat.lt_trichotomy (j / 10 % 10) (i / 10 % 10) with h3 | h3 | h3
      · exact charListLt_cons_lt ((decDigit_lt _ (by omega) _ (by omega)).mpr h3) _ _
      · rw [h3, charListLt_cons_eq]
        have h4 : j % 10 < i % 10 := by omega
        exact charListLt_cons_lt ((decDigit_lt _ (by omega) _ (by omega)).mpr h4) _ _
      · omega
    · omega
  · omega

theorem fileName_mono (paper_id : String) (j i : Nat) (hj : j < i) (hi : i < 10000) :
    charListLt
      (StoredFile.fileName ⟨paper_id ++ "_chunk_" ++ format04 j, ""⟩).data
      (StoredFile.fileName ⟨paper_id ++ "_chunk_" ++ format04 i, ""⟩).data = true := by
  have hshape : ∀ k : Nat,
      (StoredFile.fileName ⟨paper_id ++ "_chunk_" ++ format04 k, ""⟩).data =
        (paper_id.data ++ ("_chunk_" : String).data) ++
          ((format04 k).data ++ (".txt" : String).data) := by
    intro k
    simp only [StoredFile.fileName, String.data_append]
    simp [List.append_assoc]
  rw [hshape j, hshape i, charListLt_append_same]
  exact format04_append_lt j i hj hi _ _

/-- The file name comparison does not depend on the file content. -/
theorem fileName_content_irrel (stem c c' : String) :
    (StoredFile.fileName ⟨stem, c⟩).data = (StoredFile.fileName ⟨stem, c'⟩).data := rfl

instance : IsTotal StoredFile storedOrd :=
  ⟨fun a b => by
    by_cases h : charListLt b.fileName.data a.fileName.data = true
    · right
      intro h2
      rw [charListLt_asymm _ _ h] at h2
      cases h2
    · left
      exact h⟩

instance : IsTrans StoredFile storedOrd :=
  ⟨fun a b c hab hbc => by
    intro hca
    rcases charListLt_trichotomy a.fileName.data b.fileName.data with h | h | h
    · exact hbc (charListLt_trans _ _ _ hca h)
    · rw [h] at hca
      exact hbc hca
    · exact hab h⟩

/-- **C7.** For every paper id and every set of stored chunk files following
the `{paper_id}_chunk_{index zero-padded to 4 digits}` naming convention
(indices below 10000, so the zero-padded suffix is exactly 4 digits),
`ChunkStore.read_chunks` returns exactly the persisted chunks — each chunk's
index reconstructed by parsing the numeric suffix of the stored unit's name —
sorted ascending by the index field. -/
theorem read_chunks_sorted_by_index (paper_id : String) (entries : List (Nat × String))
    (hlt : ∀ e ∈ entries, e.1 < 10000) :
    (ChunkStore.read_chunks paper_id (entries.map (fun e =>
        (⟨paper_id ++ "_chunk_" ++ format04 e.1, e.2⟩ : StoredFile)))).Perm
      (entries.map (fun e => (⟨paper_id ++ "_chunk_" ++ format04 e.1, paper_id, e.2,
        (e.1 : Int)⟩ : Chunk))) ∧
    ((ChunkStore.read_chunks paper_id (entries.map (fun e =>
        (⟨paper_id ++ "_chunk_" ++ format04 e.1, e.2⟩ : StoredFile)))).map
      (·.index)).Pairwise (· ≤ ·) := by
  set files := entries.map (fun e =>
    (⟨paper_id ++ "_chunk_" ++ format04 e.1, e.2⟩ : StoredFile)) with hfiles
  have hparse : ∀ f ∈ files, ∃ e ∈ entries,
      f = ⟨paper_id ++ "_chunk_" ++ format04 e.1, e.2⟩ ∧
        parseStemIndex f.stem = (e.1 : Int) := by
    intro f hf
    rw [hfiles] at hf
    obtain ⟨e, he, rfl⟩ := List.mem_map.mp hf
    exact ⟨e, he, rfl, parseStemIndex_convention paper_id e.1 (hlt e he)⟩
  constructor
  · refine ((List.perm_insertionSort storedOrd files).map _).trans ?_
    rw [hfiles, List.map_map]
    have heq : entries.map ((fun f : StoredFile =>
        ({ chunk_id := f.stem, paper_id := paper_id, text := f.content,
           index := parseStemIndex f.stem } : Chunk)) ∘ (fun e =>
        (⟨paper_id ++ "_chunk_" ++ format04 e.1, e.2⟩ : StoredFile))) =
        entries.map (fun e => (⟨paper_id ++ "_chunk_" ++ format04 e.1, paper_id, e.2,
          (e.1 : Int)⟩ : Chunk)) := by
      refine List.map_congr_left ?_
      intro e he
      simp only [Function.comp_apply]
      congr 1
      exact parseStemIndex_convention paper_id e.1 (hlt e he)
    rw [heq]
  · rw [show ChunkStore.read_chunks paper_id files =
      (List.insertionSort storedOrd files).map (fun f : StoredFile =>
        ({ chunk_id := f.stem, paper_id := paper_id, text := f.content,
           index := parseStemIndex f.stem } : Chunk)) from rfl]
    rw [List.map_map, List.pairwise_map]
    have hsorted : (List.insertionSort storedOrd files).Pairwise storedOrd :=
      List.sorted_insertionSort storedOrd files
    refine hsorted.imp_of_mem ?_
    intro a b ha hb hr
    have ha' : a ∈ files := (List.mem_insertionSort storedOrd).mp ha
    have hb' : b ∈ files := (List.mem_insertionSort storedOrd).mp hb
    obtain ⟨ea, hea, rfl, hpa⟩ := hparse a ha'
    obtain ⟨eb, heb, rfl, hpb⟩ := hparse b hb'
    simp only [Function.comp_apply]
    show parseStemIndex _ ≤ parseStemIndex _
    rw [hpa, hpb]
    by_contra hcon
    have hba : eb.1 < ea.1 := by
      push_neg at hcon
      exact_mod_cast hcon
    have hlt2 : charListLt
        (StoredFile.fileName ⟨paper_id ++ "_chunk_" ++ format04 eb.1, eb.2⟩).data
        (StoredFile.fileName ⟨paper_id ++ "_chunk_" ++ format04 ea.1, ea.2⟩).data = true := by
      rw [fileName_content_irrel _ eb.2 "", fileName_content_irrel _ ea.2 ""]
      exact fileName_mono paper_id eb.1 ea.1 hba (hlt ea hea)
    exact hr hlt2

/-- Witness for C7 at three out-of-order stored chunk files. -/
theorem read_chunks_sorted_by_index_witness :
    (ChunkStore.read_chunks "p" ([(2, "ta"), (0, "tb"), (1, "tc")].map
        (fun e : Nat × String =>
          (⟨"p" ++ "_chunk_" ++ format04 e.1, e.2⟩ : StoredFile)))).Perm
      ([(2, "ta"), (0, "tb"), (1, "tc")].map (fun e : Nat × String =>
        (⟨"p" ++ "_chunk_" ++ format04 e.1, "p", e.2, (e.1 : Int)⟩ : Chunk))) ∧
    ((ChunkStore.read_chunks "p" ([(2, "ta"), (0, "tb"), (1, "tc")].map
        (fun e : Nat × String =>
          (⟨"p" ++ "_chunk_" ++ format04 e.1, e.2⟩ : StoredFile)))).map
      (·.index)).Pairwise (· ≤ ·) :=
  read_chunks_sorted_by_index "p" [(2, "ta"), (0, "tb"), (1, "tc")] (by decide)

/- ### Persistent FAISS retrieval (`Benchmark/services/retrieval_service.py`) -/

/-- Python truthiness of an optional string (`if self.faiss_error:`,
`if not api_key:`): `None` and the empty string are falsy. -/
def optTruthy : Option String → Bool
  | none => false
  | some s => !(s == "")

/-- One parsed line of `chunks_metadata.jsonl` (the fields the service reads). -/
structure MetaRow where
  faiss_id : Int
  chunk_id : String
  paper_id : String
  file_path : String
deriving DecidableEq

/-- The process environment `_ensure_faiss_ready` and the retrieval calls
probe: optional dependencies, on-disk artifacts, the credential, and — for
the loaded-index success path — the remote embedding plus index search
(`search`) and chunk-file reads (`file_contents`), abstracted as functions. -/
structure FaissEnv where
  deps_available : Bool
  import_error : String
  index_file_exists : Bool
  metadata_file_exists : Bool
  metadata_rows : List MetaRow
  manifest : Option (String × String)
  api_key : Option String
  search : String → Int → List (ℚ × Int)
  file_contents : String → Option String

/-- The mutable fields of `RetrievalService` that the FAISS paths touch.
`faiss_loaded` stands for `_faiss_index is not None and _faiss_rows_by_id is
not None` (they are always assigned together). -/
structure RetrievalState where
  faiss_loaded : Bool
  rows_by_id : List (Int × MetaRow)
  rows_by_chunk_id : List (String × MetaRow)
  faiss_metric : String
  faiss_embedding_model : String
  chunk_text_cache : List (String × String)
  faiss_error : Option String

/-- `RetrievalService.__init__`. -/
def RetrievalState.init (config_embedding_model : String) : RetrievalState :=
  { faiss_loaded := false
    rows_by_id := []
    rows_by_chunk_id := []
    faiss_metric := "cosine"
    faiss_embedding_model := config_embedding_model
    chunk_text_cache := []
    faiss_error := none }

/-- `RetrievalService._ensure_faiss_ready`: cached success, latched failure,
else probe dependencies, artifacts and the credential, recording a diagnostic
and answering `False` on the first problem found — never raising. -/
def ensure_faiss_ready (env : FaissEnv) (config_embedding_model : String)
    (s : RetrievalState) : Bool × RetrievalState :=
  if s.faiss_loaded then (true, s)
  else if optTruthy s.faiss_error then (false, s)
  else if ¬ env.deps_available then
    let msg := "Missing dependency for FAISS retrieval: " ++ env.import_error
    (false, { s with faiss_error := some msg })
  else if ¬ (env.index_file_exists ∧ env.metadata_file_exists) then
    let msg := "Missing FAISS artifacts. Expected data/faiss_rag_index/chunks.faiss and " ++
      "data/faiss_rag_index/chunks_metadata.jsonl."
    (false, { s with faiss_error := some msg })
  else
    let rows_by_id := env.metadata_rows.foldl (fun d r => dictSet d r.faiss_id r) []
    let rows_by_chunk_id := env.metadata_rows.foldl (fun d r => dictSet d r.chunk_id r) []
    let s1 := { s with
      faiss_metric := (match env.manifest with
        | some m => m.1
        | none => "cosine")
      faiss_embedding_model := (match env.manifest with
        | some m => m.2
        | none => config_embedding_model) }
    if ¬ optTruthy env.api_key then
      (false, { s1 with faiss_error := some "OPENAI_API_KEY is not set." })
    else
      (true, { s1 with
        faiss_loaded := true
        rows_by_id := rows_by_id
        rows_by_chunk_id := rows_by_chunk_id })

/-- The result-assembly loop of `retrieve_top_faiss`: skip the `-1` no-match
sentinel and unknown ids, join hits back to metadata rows, rank densely. -/
def rankHits (rows_by_id : List (Int × MetaRow)) (hits : List (ℚ × Int)) :
    List EvidenceCandidate :=
  hits.foldl
    (fun (acc : List EvidenceCandidate) (p : ℚ × Int) =>
      if p.2 < 0 then acc
      else
        match dictGet? rows_by_id p.2 with
        | none => acc
        | some row => acc ++ [⟨row.chunk_id, p.1, (acc.length : Int) + 1⟩])
    []

/-- `RetrievalService.retrieve_top_faiss`. -/
def retrieve_top_faiss (env : FaissEnv) (config_embedding_model : String)
    (s : RetrievalState) (question : String) (limit : Int) :
    List EvidenceCandidate × RetrievalState :=
  if limit ≤ 0 then ([], s)
  else
    match ensure_faiss_ready env config_embedding_model s with
    | (false, s1) => ([], s1)
    | (true, s1) => (rankHits s1.rows_by_id (env.search question limit), s1)

/-- The per-candidate body of `load_chunks_for_candidates`, threading the
chunk-text cache. -/
def loadChunksLoop (env : FaissEnv) (rows_by_chunk_id : List (String × MetaRow)) :
    List EvidenceCandidate → List (String × Chunk) → List (String × String) →
      List (String × Chunk) × List (String × String)
  | [], acc, cache => (acc, cache)
  | cand :: rest, acc, cache =>
    match dictGet? rows_by_chunk_id cand.chunk_id with
    | none => loadChunksLoop env rows_by_chunk_id rest acc cache
    | some row =>
      match env.file_contents row.file_path with
      | none => loadChunksLoop env rows_by_chunk_id rest acc cache
      | some text =>
        let cache1 := if (dictGet? cache cand.chunk_id).isNone then
            dictSet cache cand.chunk_id text
          else cache
        let chunk_index := (pyInt? ((splitChar '_' cand.chunk_id.data).getLastD [])).getD 0
        loadChunksLoop env rows_by_chunk_id rest
          (dictSet acc cand.chunk_id
            { chunk_id := cand.chunk_id
              paper_id := row.paper_id
              text := (dictGet? cache1 cand.chunk_id).getD ""
              index := chunk_index })
          cache1

/-- `RetrievalService.load_chunks_for_candidates`. -/
def load_chunks_for_candidates (env : FaissEnv) (config_embedding_model : String)
    (s : RetrievalState) (candidates : List EvidenceCandidate) :
    List (String × Chunk) × RetrievalState :=
  match ensure_faiss_ready env config_embedding_model s with
  | (false, s1) => ([], s1)
  | (true, s1) =>
    let (chunks_by_id, cache) :=
      loadChunksLoop env s1.rows_by_chunk_id candidates [] s1.chunk_text_cache
    (chunks_by_id, { s1 with chunk_text_cache := cache })

theorem string_append_left_ne_empty (a b : String) (ha : a.data ≠ []) : a ++ b ≠ "" := by
  intro h
  apply ha
  have hd := congrArg String.data h
  rw [String.data_append] at hd
  exact (List.append_eq_nil.mp hd).1

theorem optTruthy_some_ne (x : String) (hx : x ≠ "") : optTruthy (some x) = true := by
  simp [optTruthy, hx]

/-- Once `faiss_error` holds a truthy string and no index is loaded, the
readiness check answers `False` immediately, touching neither the state nor
the environment. -/
theorem ensure_faiss_ready_latched (env : FaissEnv) (config_embedding_model : String)
    (s : RetrievalState) (hnl : s.faiss_loaded = false)
    (htr : optTruthy s.faiss_error = true) :
    ensure_faiss_ready env config_embedding_model s = (false, s) := by
  simp [ensure_faiss_ready, hnl, htr]

theorem retrieve_top_faiss_of_latched (env : FaissEnv) (config_embedding_model : String)
    (s : RetrievalState) (hnl : s.faiss_loaded = false)
    (htr : optTruthy s.faiss_error = true) (question : String) (limit : Int) :
    retrieve_top_faiss env config_embedding_model s question limit = ([], s) := by
  by_cases hl : limit ≤ 0
  · simp [retrieve_top_faiss, hl]
  · simp [retrieve_top_faiss, hl,
      ensure_faiss_ready_latched env config_embedding_model s hnl htr]

/-- **C10.** Once a readiness check has failed and `faiss_error` holds a
non-`None` (truthy) string, every subsequent `retrieve_top_faiss` call
returns the empty list and every `load_chunks_for_candidates` call returns
the empty map, without re-probing dependencies, artifacts, or credentials
(the environment is universally quantified and the state is returned
unchanged, so the error is never cleared for the lifetime of the service
instance, even if the missing artifacts or credential later become
available).  Additionally, `retrieve_top_faiss` with `limit ≤ 0` returns the
empty list before any readiness check, for every state and environment. -/
theorem faiss_error_latched (env : FaissEnv) (config_embedding_model : String)
    (s : RetrievalState) (e : String) (he : s.faiss_error = some e) (hne : e ≠ "")
    (hnl : s.faiss_loaded = false) (question : String) (limit : Int)
    (candidates : List EvidenceCandidate) :
    ensure_faiss_ready env config_embedding_model s = (false, s) ∧
    retrieve_top_faiss env config_embedding_model s question limit = ([], s) ∧
    load_chunks_for_candidates env config_embedding_model s candidates = ([], s) ∧
    (retrieve_top_faiss env config_embedding_model s question limit).2.faiss_error =
      some e ∧
    (∀ (env₂ : FaissEnv) (cfg₂ : String) (s₂ : RetrievalState) (q₂ : String) (l₂ : Int),
      l₂ ≤ 0 → retrieve_top_faiss env₂ cfg₂ s₂ q₂ l₂ = ([], s₂)) := by
  have htr : optTruthy s.faiss_error = true := by
    rw [he]
    exact optTruthy_some_ne e hne
  have hens := ensure_faiss_ready_latched env config_embedding_model s hnl htr
  have hret := retrieve_top_faiss_of_latched env config_embedding_model s hnl htr
    question limit
  refine ⟨hens, hret, ?_, ?_, ?_⟩
  · simp [load_chunks_for_candidates, hens]
  · rw [hret]
    exact he
  · intro env₂ cfg₂ s₂ q₂ l₂ hl₂
    simp [retrieve_top_faiss, hl₂]

/-- Witness for C10 at a latched state holding the artifacts-missing
diagnostic, probed against a fully healthy environment. -/
theorem faiss_error_latched_witness :
    ensure_faiss_ready
        ⟨true, "", true, true, [], none, some "k", fun _ _ => [], fun _ => none⟩ "m"
        ⟨false, [], [], "cosine", "m", [], some "boom"⟩ =
      (false, ⟨false, [], [], "cosine", "m", [], some "boom"⟩) ∧
    retrieve_top_faiss
        ⟨true, "", true, true, [], none, some "k", fun _ _ => [], fun _ => none⟩ "m"
        ⟨false, [], [], "cosine", "m", [], some "boom"⟩ "q" 5 =
      ([], ⟨false, [], [], "cosine", "m", [], some "boom"⟩) ∧
    load_chunks_for_candidates
        ⟨true, "", true, true, [], none, some "k", fun _ _ => [], fun _ => none⟩ "m"
        ⟨false, [], [], "cosine", "m", [], some "boom"⟩ [] =
      ([], ⟨false, [], [], "cosine", "m", [], some "boom"⟩) ∧
    (retrieve_top_faiss
        ⟨true, "", true, true, [], none, some "k", fun _ _ => [], fun _ => none⟩ "m"
        ⟨false, [], [], "cosine", "m", [], some "boom"⟩ "q" 5).2.faiss_error =
      some "boom" ∧
    (∀ (env₂ : FaissEnv) (cfg₂ : String) (s₂ : RetrievalState) (q₂ : String) (l₂ : Int),
      l₂ ≤ 0 → retrieve_top_faiss env₂ cfg₂ s₂ q₂ l₂ = ([], s₂)) :=
  faiss_error_latched
    ⟨true, "", true, true, [], none, some "k", fun _ _ => [], fun _ => none⟩ "m"
    ⟨false, [], [], "cosine", "m", [], some "boom"⟩ "boom" rfl (by decide) rfl "q" 5 []

/-- On a fresh (unlatched, unloaded) state, a readiness probe against an
environment missing a required artifact or the credential fails, recording a
truthy diagnostic without loading the index. -/
theorem ensure_faiss_ready_records_error (env : FaissEnv) (config_embedding_model : String)
    (s : RetrievalState) (hnl : s.faiss_loaded = false)
    (hne : optTruthy s.faiss_error = false)
    (hmiss : env.index_file_exists = false ∨ env.metadata_file_exists = false ∨
      optTruthy env.api_key = false) :
    ∃ s', ensure_faiss_ready env config_embedding_model s = (false, s') ∧
      optTruthy s'.faiss_error = true ∧ s'.faiss_loaded = false := by
  by_cases hd : env.deps_available
  · by_cases hart : env.index_file_exists ∧ env.metadata_file_exists
    · have hkey : optTruthy env.api_key = false := by
        rcases hmiss with h | h | h
        · rw [h] at hart
          exact absurd hart.1 (by simp)
        · rw [h] at hart
          exact absurd hart.2 (by simp)
        · exact h
      have hunfold : ensure_faiss_ready env config_embedding_model s =
          (false, { s with
            faiss_metric := (match env.manifest with
              | some m => m.1
              | none => "cosine")
            faiss_embedding_model := (match env.manifest with
              | some m => m.2
              | none => config_embedding_model)
            faiss_error := some "OPENAI_API_KEY is not set." }) := by
        simp only [ensure_faiss_ready, hnl, hne, hd, hkey]
        simp [hart.1, hart.2]
      refine ⟨_, hunfold, ?_, ?_⟩
      · simp [optTruthy]
      · exact hnl
    · have hunfold : ensure_faiss_ready env config_embedding_model s =
          (false, { s with faiss_error := some ("Missing FAISS artifacts. Expected data/faiss_rag_index/chunks.faiss and " ++ "data/faiss_rag_index/chunks_metadata.jsonl.") }) := by
        simp only [ensure_faiss_ready, hnl, hne, hd]
        simp [hart]
      refine ⟨_, hunfold, ?_, ?_⟩
      · exact optTruthy_some_ne _ (by decide)
      · exact hnl
  · have hunfold : ensure_faiss_ready env config_embedding_model s =
        (false, { s with faiss_error := some ("Missing dependency for FAISS retrieval: " ++ env.import_error) }) := by
      simp only [ensure_faiss_ready, hnl, hne, hd]
      simp
    refine ⟨_, hunfold, ?_, ?_⟩
    · exact optTruthy_some_ne _
        (string_append_left_ne_empty _ env.import_error (by decide))
    · exact hnl

/-- **C5.** For every call to `retrieve_top_faiss` on a service that has not
yet loaded the index or latched an error, if a required artifact (index
file, metadata file) or the remote-embedding credential is missing, the call
records a truthy diagnostic string retrievable by the caller
(`faiss_error`) and returns an empty result — the failing paths are explicit
returns, never raises — and every subsequent call on the resulting state
likewise returns empty (the latched error means no future readiness check is
attempted, so none succeeds). -/
theorem retrieve_top_faiss_soft_failure (env : FaissEnv) (config_embedding_model : String)
    (s : RetrievalState) (hnl : s.faiss_loaded = false)
    (hne : optTruthy s.faiss_error = false)
    (hmiss : env.index_file_exists = false ∨ env.metadata_file_exists = false ∨
      optTruthy env.api_key = false)
    (question : String) (limit : Int) (hl : 0 < limit) :
    (retrieve_top_faiss env config_embedding_model s question limit).1 = [] ∧
    optTruthy
      (retrieve_top_faiss env config_embedding_model s question limit).2.faiss_error
      = true ∧
    (∀ (env₂ : FaissEnv) (cfg₂ : String) (q₂ : String) (l₂ : Int),
      (retrieve_top_faiss env₂ cfg₂
        (retrieve_top_faiss env config_embedding_model s question limit).2 q₂ l₂).1 =
      []) := by
  obtain ⟨s', hens, htr, hnl'⟩ :=
    ensure_faiss_ready_records_error env config_embedding_model s hnl hne hmiss
  have hret : retrieve_top_faiss env config_embedding_model s question limit = ([], s') := by
    simp [retrieve_top_faiss, (show ¬ limit ≤ 0 by omega), hens]
  refine ⟨by rw [hret], by rw [hret]; exact htr, ?_⟩
  intro env₂ cfg₂ q₂ l₂
  rw [hret]
  by_cases hl₂ : l₂ ≤ 0
  · simp [retrieve_top_faiss, hl₂]
  · rw [retrieve_top_faiss_of_latched env₂ cfg₂ s' hnl' htr q₂ l₂]

/-- Witness for C5: fresh service state, environment whose index artifact is
missing. -/
theorem retrieve_top_faiss_soft_failure_witness :
    (retrieve_top_faiss
        ⟨true, "", false, true, [], none, some "k", fun _ _ => [], fun _ => none⟩ "m"
        (RetrievalState.init "m") "q" 20).1 = [] ∧
    optTruthy (retrieve_top_faiss
        ⟨true, "", false, true, [], none, some "k", fun _ _ => [], fun _ => none⟩ "m"
        (RetrievalState.init "m") "q" 20).2.faiss_error = true ∧
    (∀ (env₂ : FaissEnv) (cfg₂ : String) (q₂ : String) (l₂ : Int),
      (retrieve_top_faiss env₂ cfg₂
        (retrieve_top_faiss
          ⟨true, "", false, true, [], none, some "k", fun _ _ => [], fun _ => none⟩ "m"
          (RetrievalState.init "m") "q" 20).2 q₂ l₂).1 = []) :=
  retrieve_top_faiss_soft_failure
    ⟨true, "", false, true, [], none, some "k", fun _ _ => [], fun _ => none⟩ "m"
    (RetrievalState.init "m") rfl rfl (Or.inl rfl) "q" 20 (by decide)
